import Mathlib

/-!
Verification of the news-ingestion/classification pipeline
(`pipeline.py`, `processors.py`, `transform.py`).

The Python source is shallowly embedded: strings are `List Char` wrapped in
`String`, JSON values are an inductive `Json` type, and every function is a
computable Lean definition mirroring the corresponding Python function.
Scanning functions that are not structurally recursive take an explicit fuel
argument; every wrapper passes fuel strictly larger than the input length,
which is always sufficient (each step consumes at least one character).

Modelling notes (external library behaviour, not repository code):
* Python's whitespace classes (`str.isspace`, `\s`, `str.strip`,
  `str.splitlines`) are modelled on their ASCII subset; no keyword table or
  verified input contains a non-ASCII whitespace character.
* `str.lower` is modelled as ASCII lowercasing; the keyword tables contain
  only ASCII letters and Korean syllables, which `str.lower` leaves unchanged.
* `html.unescape` is modelled on the core entities (`lt`, `gt`, `amp`,
  `quot`, numeric escapes), with and without the trailing semicolon, exactly
  as the real table resolves them; on text without `&` it is the identity,
  as the real function is.
* JSON numbers are modelled as integer literals; no verified claim involves
  fractional literals.
-/

/-- Left brace character, written via its code point. -/
def lbrace : Char := Char.ofNat 123

/-- Right brace character, written via its code point. -/
def rbrace : Char := Char.ofNat 125

/-- ASCII part of Python's whitespace class (`str.isspace`, `\s`, `str.strip`). -/
def pyWs (c : Char) : Bool :=
  c = ' ' || c = '\t' || c = '\n' || c = '\x0d' || c = '\x0b' || c = '\x0c'

/-- The class `[ \t]` of the horizontal-whitespace regex in `strip_html`. -/
def spTab (c : Char) : Bool := c = ' ' || c = '\t'

/-- ASCII digit test (`\d`, `[0-9]`). -/
def isDig (c : Char) : Bool := '0' ≤ c && c ≤ '9'

/-- ASCII letter test (`[a-zA-Z]`). -/
def isAsciiLetter (c : Char) : Bool :=
  ('a' ≤ c && c ≤ 'z') || ('A' ≤ c && c ≤ 'Z')

/-- Hangul syllable test (the `가-힣` range of the tokenizer regex). -/
def isHangul (c : Char) : Bool :=
  0xAC00 ≤ c.toNat && c.toNat ≤ 0xD7A3

/-- ASCII lowercasing, modelling `str.lower` on the inputs that matter here. -/
def lowerChar (c : Char) : Char :=
  if 'A' ≤ c && c ≤ 'Z' then Char.ofNat (c.toNat + 32) else c

def pyLowerL (l : List Char) : List Char := l.map lowerChar

/-- `str.lower`. -/
def pyLower (s : String) : String := ⟨pyLowerL s.data⟩

/-- Left trim over Python whitespace (`str.lstrip`). -/
def pstripLeftL (l : List Char) : List Char := l.dropWhile pyWs

/-- Two-sided trim over Python whitespace (`str.strip`). -/
def pstripL (l : List Char) : List Char :=
  ((l.dropWhile pyWs).reverse.dropWhile pyWs).reverse

/-- `str.strip`. -/
def pstrip (s : String) : String := ⟨pstripL s.data⟩

/-- `List.isPrefixOf`-style check used by the substring scan. -/
def prefixAt : List Char → List Char → Bool
  | _, [] => true
  | [], _ :: _ => false
  | c :: rest, p :: ps => c = p && prefixAt rest ps

def containsSubL (l pat : List Char) : Bool :=
  match l with
  | [] => prefixAt [] pat
  | _ :: rest => prefixAt l pat || containsSubL rest pat

/-- Python's `pat in s` substring test. -/
def containsSub (s pat : String) : Bool := containsSubL s.data pat.data

/-- `any(term in t for term in terms)`. -/
def hasAny (t : String) (terms : List String) : Bool :=
  terms.any (fun term => containsSub t term)

/-- Does `l` end with `pat`?  Models the anchored regexes `...$`. -/
def endsWithL (l pat : List Char) : Bool :=
  prefixAt (l.drop (l.length - pat.length)) pat && decide (pat.length ≤ l.length)

def endsWith (s pat : String) : Bool := endsWithL s.data pat.data

/-- Drop trailing characters belonging to `set` (Python `str.rstrip(chars)`). -/
def rstripSetL (set : List Char) (l : List Char) : List Char :=
  (l.reverse.dropWhile (fun c => set.contains c)).reverse

/-- `re.sub(r"[ \t]+", " ", ·)`: each maximal run of spaces/tabs becomes one
space.  Structured as: a space/tab followed by another space/tab is dropped,
the last one of a run is emitted as `' '`. -/
def collapseWS : List Char → List Char
  | [] => []
  | c :: rest =>
    if spTab c then
      match rest with
      | r :: _ => if spTab r then collapseWS rest else ' ' :: collapseWS rest
      | [] => [' ']
    else c :: collapseWS rest

/-- `re.sub(r"\s+", " ", ·)` (used by `_normalize_subs`, `_close_sentence`
and `_split_sentences_ko`): each maximal whitespace run becomes one space. -/
def collapseAllWS : List Char → List Char
  | [] => []
  | c :: rest =>
    if pyWs c then
      match rest with
      | r :: _ => if pyWs r then collapseAllWS rest else ' ' :: collapseAllWS rest
      | [] => [' ']
    else c :: collapseAllWS rest

/-- Number of newlines in the whitespace run starting at the head of `l`. -/
def nlRunCount (l : List Char) : Nat := (l.takeWhile pyWs).count '\n'

/-- Splits the maximal whitespace run of `l` at its last newline: returns the
part strictly after the last `'\n'` of the run, followed by the rest of `l`.
Only used when the run contains at least one newline. -/
def afterLastNL (l : List Char) : List Char :=
  let w := l.takeWhile pyWs
  let rest := l.drop w.length
  (w.reverse.takeWhile (fun c => c ≠ '\n')).reverse ++ rest

/-- Fuel-indexed engine for `re.sub(r"\n\s*\n\s*\n+", "\n\n", ·)`.
A match starts exactly at a newline whose whitespace run contains at least
three newlines; the greedy match extends through the last newline of the run
and is replaced by two newlines, scanning resuming after it. -/
def collapseNLF : Nat → List Char → List Char
  | 0, l => l
  | _ + 1, [] => []
  | fuel + 1, c :: rest =>
    if c = '\n' && decide (3 ≤ nlRunCount (c :: rest)) then
      '\n' :: '\n' :: collapseNLF fuel (afterLastNL (c :: rest))
    else c :: collapseNLF fuel rest

def collapseNL (l : List Char) : List Char := collapseNLF (l.length + 1) l

/-- Case-insensitive prefix test (patterns are given lowercased). -/
def prefixCI : List Char → List Char → Bool
  | _, [] => true
  | [], _ :: _ => false
  | c :: rest, p :: ps => lowerChar c = p && prefixCI rest ps

/-- Drop characters through the first `'>'`; `none` when there is none.
Implements the lazy `.*?>` step of the tag regexes. -/
def dropThroughGt : List Char → Option (List Char)
  | [] => none
  | c :: rest => if c = '>' then some rest else dropThroughGt rest

/-- Drop characters through the first case-insensitive occurrence of `pat`;
`none` when there is none.  Implements the lazy `.*?</tag>` step. -/
def dropThroughCI (pat : List Char) : List Char → Option (List Char)
  | [] => if pat = [] then some [] else none
  | c :: rest =>
    if prefixCI (c :: rest) pat then some ((c :: rest).drop pat.length)
    else dropThroughCI pat rest

/-- `re.sub(r"<(script|style).*?>.*?</\1>", " ", ·, IGNORECASE | DOTALL)`:
at a position opening `<script`/`<style`, the lazy match runs to the first
`'>'` and then to the first matching close tag; the whole block becomes one
space.  A position without a complete block is left unchanged. -/
def scriptStyleSubF : Nat → List Char → List Char
  | 0, l => l
  | _ + 1, [] => []
  | fuel + 1, c :: rest =>
    let tryTag (tag : List Char) : Option (List Char) := do
      let afterOpen ← dropThroughGt ((c :: rest).drop (1 + tag.length))
      dropThroughCI ('<' :: '/' :: (tag ++ ['>'])) afterOpen
    if prefixCI (c :: rest) ('<' :: "script".data) then
      match tryTag "script".data with
      | some r => ' ' :: scriptStyleSubF fuel r
      | none => c :: scriptStyleSubF fuel rest
    else if prefixCI (c :: rest) ('<' :: "style".data) then
      match tryTag "style".data with
      | some r => ' ' :: scriptStyleSubF fuel r
      | none => c :: scriptStyleSubF fuel rest
    else c :: scriptStyleSubF fuel rest

def scriptStyleSub (l : List Char) : List Char := scriptStyleSubF (l.length + 1) l

/-- After a case-insensitive `<br`, match `\s*/?>` and return the remainder. -/
def brTail (l : List Char) : Option (List Char) :=
  match l.dropWhile pyWs with
  | '/' :: '>' :: r => some r
  | '>' :: r => some r
  | _ => none

/-- `re.sub(r"<br\s*/?>", "\n", ·, IGNORECASE)`. -/
def brSubF : Nat → List Char → List Char
  | 0, l => l
  | _ + 1, [] => []
  | fuel + 1, c :: rest =>
    if prefixCI (c :: rest) "<br".data then
      match brTail ((c :: rest).drop 3) with
      | some r => '\n' :: brSubF fuel r
      | none => c :: brSubF fuel rest
    else c :: brSubF fuel rest

def brSub (l : List Char) : List Char := brSubF (l.length + 1) l

/-- After a case-insensitive `</p`, match `\s*>` and return the remainder. -/
def pTail (l : List Char) : Option (List Char) :=
  match l.dropWhile pyWs with
  | '>' :: r => some r
  | _ => none

/-- `re.sub(r"</p\s*>", "\n", ·, IGNORECASE)`. -/
def pSubF : Nat → List Char → List Char
  | 0, l => l
  | _ + 1, [] => []
  | fuel + 1, c :: rest =>
    if prefixCI (c :: rest) "</p".data then
      match pTail ((c :: rest).drop 3) with
      | some r => '\n' :: pSubF fuel r
      | none => c :: pSubF fuel rest
    else c :: pSubF fuel rest

def pSub (l : List Char) : List Char := pSubF (l.length + 1) l

/-- `re.sub(r"<.*?>", " ", ·, DOTALL)`: every `'<'` with a later `'>'` opens a
lazy match through the first `'>'`, replaced by one space. -/
def tagSubF : Nat → List Char → List Char
  | 0, l => l
  | _ + 1, [] => []
  | fuel + 1, c :: rest =>
    if c = '<' then
      match dropThroughGt rest with
      | some r => ' ' :: tagSubF fuel r
      | none => c :: tagSubF fuel rest
    else c :: tagSubF fuel rest

def tagSub (l : List Char) : List Char := tagSubF (l.length + 1) l

/-- Decimal digits prefix of `l` with its value, for numeric escapes. -/
def takeDigits : List Char → Nat × List Char → Nat × List Char
  | [], acc => acc
  | c :: rest, (n, _) =>
    if isDig c then takeDigits rest (n * 10 + (c.toNat - 48), rest) else (n, c :: rest)

/-- One entity at the position just after a `'&'`: the core named entities
(with the semicolon-less forms the real table also resolves) and decimal
numeric escapes. -/
def entityMatch (l : List Char) : Option (Char × List Char) :=
  if prefixAt l "amp;".data then some ('&', l.drop 4)
  else if prefixAt l "lt;".data then some ('<', l.drop 3)
  else if prefixAt l "gt;".data then some ('>', l.drop 3)
  else if prefixAt l "quot;".data then some ('"', l.drop 5)
  else if prefixAt l "amp".data then some ('&', l.drop 3)
  else if prefixAt l "lt".data then some ('<', l.drop 2)
  else if prefixAt l "gt".data then some ('>', l.drop 2)
  else if prefixAt l "quot".data then some ('"', l.drop 4)
  else
    match l with
    | '#' :: d :: rest =>
      if isDig d then
        let (n, r) := takeDigits (d :: rest) (0, d :: rest)
        let r := match r with
          | ';' :: r2 => r2
          | _ => r
        if n.isValidChar then some (Char.ofNat n, r) else none
      else none
    | _ => none

/-- `html.unescape`, restricted to the entities described above; on text
without `'&'` it is the identity, exactly as the real function is. -/
def unescapeF : Nat → List Char → List Char
  | 0, l => l
  | _ + 1, [] => []
  | fuel + 1, c :: rest =>
    if c = '&' then
      match entityMatch rest with
      | some (ch, r) => ch :: unescapeF fuel r
      | none => c :: unescapeF fuel rest
    else c :: unescapeF fuel rest

def unescapeL (l : List Char) : List Char := unescapeF (l.length + 1) l

/-- `transform.strip_html` (identical to `pipeline._local_strip_html`):
script/style removal, `<br>`/`</p>` to newlines, generic tag stripping,
entity unescaping, whitespace collapsing, trim. -/
def strip_html (s : String) : String :=
  if s = "" then ""
  else
    let t1 := scriptStyleSub s.data
    let t2 := brSub t1
    let t3 := pSub t2
    let t4 := tagSub t3
    let t5 := unescapeL t4
    let t6 := collapseWS t5
    let t7 := collapseNL t6
    ⟨pstripL t7⟩

/-- `_TAG_RX = re.compile(r"<[a-zA-Z][^>]*>")` search. -/
def hasTagL : List Char → Bool
  | [] => false
  | c :: rest =>
    (c = '<' &&
      (match rest with
       | r :: rs => isAsciiLetter r && rs.contains '>'
       | [] => false)) || hasTagL rest

/-- `transform.has_html` / `pipeline._has_html`. -/
def has_html (s : String) : Bool :=
  if s = "" then false else hasTagL s.data

/-- Parsed JSON values (`json.loads` results).  Numbers are modelled as
integer literals. -/
inductive Json where
  | null : Json
  | bool (b : Bool) : Json
  | num (n : Int) : Json
  | str (s : String) : Json
  | arr (xs : List Json) : Json
  | obj (fields : List (String × Json)) : Json
  deriving Repr

/-- JSON inter-token whitespace (`[ \t\n\r]`, the `json` module's class). -/
def jsonWs (c : Char) : Bool := c = ' ' || c = '\t' || c = '\n' || c = '\x0d'

/-- Hex digit value for `\uXXXX` escapes. -/
def hexVal (c : Char) : Option Nat :=
  if isDig c then some (c.toNat - 48)
  else if 'a' ≤ c && c ≤ 'f' then some (c.toNat - 87)
  else if 'A' ≤ c && c ≤ 'F' then some (c.toNat - 70)
  else none

/-- JSON string body after the opening quote, in strict mode (raw control
characters rejected).  Returns the decoded characters and the remainder. -/
def parseStrL : List Char → Option (List Char × List Char)
  | [] => none
  | '"' :: rest => some ([], rest)
  | '\\' :: e :: rest =>
    match e with
    | 'u' =>
      match rest with
      | a :: b :: c :: d :: rest2 =>
        match hexVal a, hexVal b, hexVal c, hexVal d with
        | some ha, some hb, some hc, some hd =>
          let n := ((ha * 16 + hb) * 16 + hc) * 16 + hd
          if n.isValidChar then
            match parseStrL rest2 with
            | some (s, r) => some (Char.ofNat n :: s, r)
            | none => none
          else none
        | _, _, _, _ => none
      | _ => none
    | _ =>
      let ch : Option Char :=
        if e = '"' then some '"' else if e = '\\' then some '\\'
        else if e = '/' then some '/' else if e = 'n' then some '\n'
        else if e = 't' then some '\t' else if e = 'r' then some '\x0d'
        else if e = 'b' then some '\x08' else if e = 'f' then some '\x0c'
        else none
      match ch with
      | some ch =>
        match parseStrL rest with
        | some (s, r) => some (ch :: s, r)
        | none => none
      | none => none
  | c :: rest =>
    if c.toNat < 32 then none
    else
      match parseStrL rest with
      | some (s, r) => some (c :: s, r)
      | none => none

/-- Value of a nonempty digit run. -/
def digitsVal (ds : List Char) : Nat :=
  ds.foldl (fun n c => n * 10 + (c.toNat - 48)) 0

/-- Unsigned JSON integer: `0` alone, or a nonzero-led digit run (the JSON
grammar `0|[1-9][0-9]*`; a leading zero ends the number at once). -/
def parseUNum : List Char → Option (Nat × List Char)
  | [] => none
  | c :: rest =>
    if c = '0' then some (0, rest)
    else if isDig c then
      let ds := rest.takeWhile isDig
      some (digitsVal (c :: ds), rest.drop ds.length)
    else none

/-- JSON number (integer literals). -/
def parseNumL (l : List Char) : Option (Json × List Char) :=
  match l with
  | '-' :: r =>
    match parseUNum r with
    | some (n, rest) => some (Json.num (-(n : Int)), rest)
    | none => none
  | _ =>
    match parseUNum l with
    | some (n, rest) => some (Json.num (n : Int), rest)
    | none => none

/-- Python `dict` member insertion while parsing an object: an existing key
keeps its position but takes the new value, a new key is appended. -/
def upsert (fields : List (String × Json)) (k : String) (v : Json) :
    List (String × Json) :=
  if fields.any (fun p => p.1 = k) then
    fields.map (fun p => if p.1 = k then (k, v) else p)
  else fields ++ [(k, v)]

mutual

/-- One JSON value at the head of `l` (no leading whitespace), as
`json.JSONDecoder().raw_decode` scans it; returns the value and remainder. -/
def parseVal : Nat → List Char → Option (Json × List Char)
  | 0, _ => none
  | fuel + 1, l =>
    match l with
    | [] => none
    | c :: rest =>
      if c = lbrace then
        let r := rest.dropWhile jsonWs
        match r with
        | c2 :: r2 => if c2 = rbrace then some (Json.obj [], r2) else parseMembers fuel r []
        | [] => none
      else if c = '[' then
        let r := rest.dropWhile jsonWs
        match r with
        | ']' :: r2 => some (Json.arr [], r2)
        | _ => parseElems fuel r []
      else if c = '"' then
        match parseStrL rest with
        | some (s, r) => some (Json.str ⟨s⟩, r)
        | none => none
      else if c = 't' then
        if prefixAt l "true".data then some (Json.bool true, l.drop 4) else none
      else if c = 'f' then
        if prefixAt l "false".data then some (Json.bool false, l.drop 5) else none
      else if c = 'n' then
        if prefixAt l "null".data then some (Json.null, l.drop 4) else none
      else if c = '-' || isDig c then parseNumL l
      else none

/-- Array elements after the opening bracket (nonempty case). -/
def parseElems : Nat → List Char → List Json → Option (Json × List Char)
  | 0, _, _ => none
  | fuel + 1, l, acc =>
    match parseVal fuel l with
    | some (v, r) =>
      match r.dropWhile jsonWs with
      | ',' :: r2 => parseElems fuel (r2.dropWhile jsonWs) (v :: acc)
      | ']' :: r2 => some (Json.arr (v :: acc).reverse, r2)
      | _ => none
    | none => none

/-- Object members starting at a key (nonempty case). -/
def parseMembers : Nat → List Char → List (String × Json) →
    Option (Json × List Char)
  | 0, _, _ => none
  | fuel + 1, l, acc =>
    match l with
    | '"' :: r =>
      match parseStrL r with
      | some (k, r1) =>
        match r1.dropWhile jsonWs with
        | ':' :: r2 =>
          match parseVal fuel (r2.dropWhile jsonWs) with
          | some (v, r3) =>
            let acc2 := upsert acc ⟨k⟩ v
            match r3.dropWhile jsonWs with
            | ',' :: r4 => parseMembers fuel (r4.dropWhile jsonWs) acc2
            | c5 :: r5 => if c5 = rbrace then some (Json.obj acc2, r5) else none
            | [] => none
          | none => none
        | _ => none
      | none => none
    | _ => none

end

/-- Fuel ample for any input of length `n` (every recursive step consumes at
least one character, at two fuel units per character). -/
def parseFuel (l : List Char) : Nat := l.length * 2 + 8

/-- `json.loads`: one value, leading and trailing JSON whitespace allowed,
anything else trailing is an error. -/
def pyLoads (s : String) : Option Json :=
  match parseVal (parseFuel (s.data.dropWhile jsonWs)) (s.data.dropWhile jsonWs) with
  | some (v, rest) => if rest.dropWhile jsonWs = [] then some v else none
  | none => none

/-- `pipeline._parse_multiple_json_values`: repeatedly skip whitespace and
decode one value; on a decode failure at an adjacent-array boundary (`][` or
`] [`), the `]` under the cursor is replaced by `,` and scanning retries from
the same position; any other failure propagates (`none`). -/
def multiParseF : Nat → List Char → List Json → Option (List Json)
  | 0, _, _ => none
  | fuel + 1, l, acc =>
    let l := l.dropWhile pyWs
    match l with
    | [] => some acc.reverse
    | c :: rest =>
      match parseVal (parseFuel (c :: rest)) (c :: rest) with
      | some (v, r) => multiParseF fuel r (v :: acc)
      | none =>
        match c :: rest with
        | ']' :: '[' :: _ => multiParseF fuel (',' :: rest) acc
        | ']' :: ' ' :: '[' :: _ => multiParseF fuel (',' :: rest) acc
        | _ => none

def parse_multiple_json_values (s : String) : Option (List Json) :=
  multiParseF (s.data.length + 8) s.data []

/-- `str.splitlines` on its ASCII line terminators. -/
def splitLinesF : Nat → List Char → List (List Char)
  | 0, l => [l]
  | _ + 1, [] => []
  | fuel + 1, l =>
    let line := l.takeWhile (fun c => c ≠ '\n' && c ≠ '\x0d')
    match l.drop line.length with
    | [] => [line]
    | '\x0d' :: '\n' :: r => line :: splitLinesF fuel r
    | _ :: r => line :: splitLinesF fuel r

def splitLines (s : String) : List String :=
  (splitLinesF (s.data.length + 1) s.data).map (fun l => (⟨l⟩ : String))

/-- `_CAND_LIST_KEYS`. -/
def candListKeys : List String :=
  ["items", "data", "list", "rows", "results", "records", "news", "articles"]

/-- `_TEXT_KEYS`. -/
def textKeys : List String :=
  ["contents", "content", "text", "body", "description", "desc", "article",
   "contentBody", "content_html", "html"]

/-- `_TITLE_KEYS`. -/
def titleKeys : List String := ["title", "headline", "subject", "name"]

def isObj : Json → Bool
  | Json.obj _ => true
  | _ => false

/-- Python `dict` lookup on an object's field list. -/
def dictGet (fs : List (String × Json)) (k : String) : Option Json :=
  (fs.find? (fun p => p.1 = k)).map Prod.snd

/-- `_is_item_dict`: a dict holding a string under at least one text key. -/
def is_item_dict (j : Json) : Bool :=
  match j with
  | Json.obj fs =>
    textKeys.any (fun k =>
      match dictGet fs k with
      | some (Json.str _) => true
      | _ => false)
  | _ => false

/-- `_merge_values_into_items` on one parsed value. -/
def mergeOne (val : Json) : List Json :=
  match val with
  | Json.arr xs => xs.filter isObj
  | Json.obj fs =>
    match candListKeys.findSome? (fun k =>
        match dictGet fs k with
        | some (Json.arr v) => some v
        | _ => none) with
    | some v => v.filter isObj
    | none => [val]
  | _ => []

/-- `_merge_values_into_items`. -/
def merge_values_into_items (values : List Json) : List Json :=
  (values.map mergeOne).flatten

/-- `_extract_candidate_items_anywhere`, fuelled by nesting depth (the
recursion descends strictly into subterms, so fuel exceeding the depth of the
parsed input never runs out; the caller passes the raw text's length). -/
def extractAnyF : Nat → Json → List Json
  | 0, _ => []
  | fuel + 1, Json.arr xs =>
    let ok := xs.filter isObj
    if !ok.isEmpty && ok.any is_item_dict then ok
    else (xs.map (extractAnyF fuel)).flatten
  | fuel + 1, Json.obj fs =>
    let part1 := (candListKeys.map (fun key =>
      match dictGet fs key with
      | some (Json.arr v) =>
        let ok := v.filter isObj
        if !ok.isEmpty && ok.any is_item_dict then ok
        else extractAnyF fuel (Json.arr v)
      | _ => [])).flatten
    let part2 := (fs.map (fun p => extractAnyF fuel p.2)).flatten
    part1 ++ part2
  | _ + 1, _ => []

/-- The single plain-text record `{"title": "", "text": raw}` used when no
parse strategy yields items. -/
def plain_record (raw : String) : Json :=
  Json.obj [("title", Json.str ""), ("text", Json.str raw)]

/-- `[json.loads(ln) for ln in lines]` under the single `try` block: the
first failing line aborts the whole comprehension. -/
def allParse : List String → Option (List Json)
  | [] => some []
  | ln :: rest =>
    match pyLoads ln with
    | some v =>
      match allParse rest with
      | some vs => some (v :: vs)
      | none => none
    | none => none

/-- The JSON Lines attempt of `_load_input`: only entertained when the
left-trimmed text begins with a brace and contains a newline; one failing
line, or a non-dict line, abandons the mode. -/
def jsonlTry (raw : String) : Option (List Json) :=
  if (match pstripLeftL raw.data with
      | c :: _ => c = lbrace
      | [] => false) && raw.data.contains '\n' then
    match allParse ((splitLines raw).filter (fun ln => pstrip ln ≠ "")) with
    | some parsed => if !parsed.isEmpty && parsed.all isObj then some parsed else none
    | none => none
  else none

/-- The last-resort step of `_load_input`: an empty item set becomes the
single plain-text record. -/
def finalItems (raw : String) (items : List Json) : List Json :=
  if items.isEmpty then [plain_record raw] else items

/-- The item-recovery steps of `_load_input` after a value sequence has been
parsed: merge, empty-top-level retry, deep search, list fallback, and the
last-resort single plain-text record. -/
def afterValues (values : List Json) (raw : String) : List Json :=
  let items := merge_values_into_items values
  let p :=
    if items.isEmpty && (match values with
        | Json.arr [] :: _ => true
        | _ => false) then
      match parse_multiple_json_values raw with
      | some v2 => (v2, merge_values_into_items v2)
      | none => (values, items)
    else (values, items)
  let values := p.1
  let items := p.2
  let items :=
    if items.isEmpty && (match values with
        | Json.obj _ :: _ => true
        | _ => false) then
      let found := extractAnyF (raw.data.length + 1) (values.headD Json.null)
      if !found.isEmpty then found else items
    else items
  let items :=
    if items.isEmpty then
      match values with
      | Json.arr xs :: _ => xs.filter isObj
      | _ => items
    else items
  finalItems raw items

/-- `_load_input` (on the decoded text; the encoding-tolerant reader is the
file-system boundary). -/
def load_input (text : String) : List Json :=
  let raw := pstrip text
  if raw = "" then []
  else
    match jsonlTry raw with
    | some parsed => parsed
    | none =>
      match pyLoads raw with
      | some data => afterValues [data] raw
      | none =>
        match parse_multiple_json_values raw with
        | some values => afterValues values raw
        | none => [plain_record raw]

/-- A single-quote character for Python `repr` output. -/
def squo : String := ⟨[Char.ofNat 39]⟩

/-- Python `repr` of a parsed JSON value (used by `str` on containers).
String quoting is modelled with a plain single quote. -/
def pyRepr : Json → String
  | Json.null => "None"
  | Json.bool true => "True"
  | Json.bool false => "False"
  | Json.num n => toString n
  | Json.str s => squo ++ s ++ squo
  | Json.arr xs =>
    "[" ++ String.intercalate ", " (xs.attach.map (fun x => pyRepr x.1)) ++ "]"
  | Json.obj fs =>
    (⟨[lbrace]⟩ : String) ++
      String.intercalate ", "
        (fs.attach.map (fun p => squo ++ p.1.1 ++ squo ++ ": " ++ pyRepr p.1.2)) ++
      (⟨[rbrace]⟩ : String)
termination_by v => sizeOf v
decreasing_by
  all_goals
    first
    | (have h := List.sizeOf_lt_of_mem x.2
       simp only [Json.arr.sizeOf_spec]
       omega)
    | (obtain ⟨⟨k, v⟩, hm⟩ := p
       have h := List.sizeOf_lt_of_mem hm
       simp only [Json.obj.sizeOf_spec, Prod.mk.sizeOf_spec] at *
       omega)

/-- Python `str` of a parsed JSON value: the string itself for strings,
`repr` otherwise (spelled out on scalars). -/
def pyStr (v : Json) : String :=
  match v with
  | Json.str s => s
  | Json.null => "None"
  | Json.bool true => "True"
  | Json.bool false => "False"
  | Json.num n => toString n
  | v => pyRepr v

/-- `_coerce_id`: `None` stays `None`; otherwise `str(v).strip() or None`. -/
def coerce_id (v : Json) : Option String :=
  match v with
  | Json.null => none
  | v =>
    let s := pstrip (pyStr v)
    if s = "" then none else some s

/-- The ranked exact key list of `_get_news_id`. -/
def exactIdKeys : List String :=
  ["NewsItemId", "news_item_id", "newsIdentifyId", "newsIdentifyID",
   "newsidentifyid", "newsId", "newsID", "id"]

/-- The fuzzy key test of `_get_news_id`: the key, lowercased and stripped of
non-alphanumerics, contains both `news` and `id`, or both `identify` and
`id`. -/
def fuzzyKeyMatch (k : String) : Bool :=
  let kn : String := ⟨(pyLowerL k.data).filter (fun c => isDig c || ('a' ≤ c && c ≤ 'z'))⟩
  (containsSub kn "news" && containsSub kn "id") ||
    (containsSub kn "identify" && containsSub kn "id")

/-- `_get_news_id`. -/
def get_news_id (item : List (String × Json)) : Option String :=
  match exactIdKeys.findSome? (fun k => (dictGet item k).bind coerce_id) with
  | some v => some v
  | none =>
    item.findSome? (fun p => if fuzzyKeyMatch p.1 then coerce_id p.2 else none)

/-- One normalized record (`_normalize_items` element). -/
structure NormItem where
  newsItemId : Option String
  title : String
  contents : String
  plain_text : String
  hasHtml : Bool
  deriving Repr, DecidableEq

def fieldsOf : Json → List (String × Json)
  | Json.obj fs => fs
  | _ => []

/-- First key of `keys` present with a string value (the title/body loops of
`_normalize_items`); missing resolves to the empty string. -/
def firstStrKey (fs : List (String × Json)) (keys : List String) : String :=
  match keys.findSome? (fun k =>
      match dictGet fs k with
      | some (Json.str s) => some s
      | _ => none) with
  | some s => s
  | none => ""

/-- `_normalize_items` on one item. -/
def normalize_item (it : Json) : NormItem :=
  let fs := fieldsOf it
  let contents := firstStrKey fs textKeys
  { newsItemId := get_news_id fs
    title := firstStrKey fs titleKeys
    contents := contents
    plain_text := strip_html contents
    hasHtml := has_html contents }

/-- Order-preserving de-duplication keeping first occurrences
(`list(dict.fromkeys(xs))`). -/
def dedupFirstF : Nat → List String → List String
  | 0, l => l
  | _ + 1, [] => []
  | fuel + 1, x :: xs => x :: dedupFirstF fuel (xs.filter (fun y => y ≠ x))

def dedupFirst (l : List String) : List String := dedupFirstF (l.length + 1) l

/-- `pipeline._pad4`: keep non-blank strings, de-duplicate keeping first
occurrences, truncate to 4, right-pad with empty strings. -/
def pad4 (xs : List String) : List String :=
  let kept := (dedupFirst (xs.filter (fun x => pstrip x ≠ ""))).take 4
  kept ++ List.replicate (4 - kept.length) ""

/-- `processors._pad4`: as `pipeline._pad4` but the kept entries are
themselves stripped. -/
def pad4p (xs : List String) : List String :=
  let kept := (dedupFirst ((xs.filter (fun x => pstrip x ≠ "")).map pstrip)).take 4
  kept ++ List.replicate (4 - kept.length) ""

/-- `_PRIMARY_CATEGORIES`. -/
def PRIMARY_CATEGORIES : List String :=
  ["정책_정부", "산업_기업", "연구_기술", "규제_제도",
   "수출_글로벌", "투자_금융", "인사_조직", "사회", "기타"]

/-- `_REGION_KWS`. -/
def REGION_KWS : List String :=
  ["서울", "부산", "대구", "인천", "광주", "대전", "울산",
   "세종", "경기", "강원", "충북", "충남", "전북", "전남",
   "경북", "경남", "제주"]

/-- `_REGION_ALIASES`, in the source's insertion order. -/
def REGION_ALIASES : List (String × String) :=
  [("서울시", "서울"), ("부산시", "부산"), ("대구시", "대구"), ("인천시", "인천"),
   ("광주시", "광주"), ("대전시", "대전"), ("울산시", "울산"), ("세종시", "세종"),
   ("경기도", "경기"), ("강원도", "강원"), ("충청북도", "충북"), ("충청남도", "충남"),
   ("전라북도", "전북"), ("전라남도", "전남"), ("경상북도", "경북"), ("경상남도", "경남"),
   ("제주도", "제주"), ("수도권", "경기")]

/-- `_SUBCATEGORY_HINTS`. -/
def SUBCATEGORY_HINTS : List String :=
  ["정책", "제도개선", "규제완화", "금융지원", "세제", "투자유치",
   "수출", "무역", "글로벌진출", "고용", "채용", "노사",
   "안전관리", "재난대응", "환경", "에너지", "디지털전환",
   "R&D", "AI", "혁신", "지역", "지자체", "행사", "문화",
   "소비자보호", "보험", "대출", "노동법", "근로시간", "복지", "교육"]

/-- `_STOPWORDS` (a Python set; only membership is used). -/
def STOPWORDS : List String :=
  ["및", "그리고", "등", "으로", "에서", "대한", "관련", "이번", "지난", "통해",
   "대해", "을", "를", "은", "는", "이", "가", "와", "과", "또는", "또", "더", "등의",
   "한다", "했다", "합니다", "이다", "한다는", "있는", "없는", "가장", "최대", "최소",
   "서울시", "부산시", "대구시", "인천시", "광주시", "대전시", "울산시", "세종시"]

/-- `Processor.detect_region`: alias table first, short names second, first
match wins, no match yields the nationwide sentinel. -/
def detect_region (text : String) (title : Option String) : String :=
  let blob := (title.getD "") ++ "\n" ++ text
  match REGION_ALIASES.find? (fun p => containsSub blob p.1) with
  | some p => p.2
  | none =>
    match REGION_KWS.find? (fun kw => containsSub blob kw) with
    | some kw => kw
    | none => "전국"

/-- `_close_sentence`. -/
def close_sentence (s : String) : String :=
  let s := pstrip s
  if s = "" then ""
  else
    let s : String := ⟨collapseAllWS s.data⟩
    if endsWith s "." || endsWith s "!" || endsWith s "?" then s
    else if endsWith s "다" || endsWith s "요" || endsWith s "합니다" ||
        endsWith s "이다" then s
    else (⟨rstripSetL "…,:;".data s.data⟩ : String) ++ "다"

/-- Splitter for `re.split(r"(?<=[\.!?]|다)\s+", blob)` on whitespace-collapsed
text: split at each space whose preceding character is `.` `!` `?` or `다`. -/
def splitKoAcc : List Char → List Char → List (List Char)
  | acc, [] => [acc.reverse]
  | acc, c :: rest =>
    if c = ' ' && (match acc with
        | p :: _ => p = '.' || p = '!' || p = '?' || p = '다'
        | [] => false) then
      acc.reverse :: splitKoAcc [] rest
    else splitKoAcc (c :: acc) rest

/-- `_split_sentences_ko`. -/
def split_sentences_ko (text : String) : List String :=
  let blob := pstrip text
  if blob = "" then []
  else
    let blob : String := ⟨collapseAllWS blob.data⟩
    let sents := (splitKoAcc [] blob.data).map (fun l => (⟨l⟩ : String))
    (sents.filter (fun s => s ≠ "" && 4 < (pstrip s).length)).map pstrip

/-- Search for `\d{4}년|\d+월|\d+일|\d+%`: four digits before `년`, or a digit
directly before `월`/`일`/`%` (the last digit of a `\d+` run). -/
def hasDatePat : List Char → Bool
  | [] => false
  | c :: rest =>
    (isDig c &&
      ((match rest with
        | r1 :: r2 :: r3 :: r4 :: _ => isDig r1 && isDig r2 && isDig r3 && r4 = '년'
        | _ => false) ||
       (match rest with
        | r :: _ => r = '월' || r = '일' || r = '%'
        | _ => false))) ||
    hasDatePat rest

/-- The additive sentence score of `_fallback_summary`.  The numeric pattern
`[0-9][0-9,\.]{0,6}` matches exactly when a digit is present. -/
def scoreSent (s : String) : Nat :=
  (if hasDatePat s.data then 3 else 0) +
  (if s.data.any isDig then 2 else 0) +
  (if hasAny s ["부", "청", "처", "원", "공사", "위원회", "정부", "부처"] then 2 else 0) +
  (if hasAny s ["지원", "확대", "개선", "도입", "발표", "시행", "확정", "투자",
                "수출", "안전", "출시"] then 2 else 0) +
  (if 20 ≤ s.length then 1 else 0)

/-- Stable insertion step for a descending sort by `key` (Python's stable
`sorted(·, key, reverse=True)`). -/
def insertDescBy (key : α → Nat) (x : α) : List α → List α
  | [] => [x]
  | y :: ys => if key y ≤ key x then x :: y :: ys else y :: insertDescBy key x ys

def sortDescBy (key : α → Nat) (l : List α) : List α :=
  l.foldr (insertDescBy key) []

/-- The closing pad of `_fallback_summary`: `while len(picked) < 3:
picked.append(""); return picked[:3]`. -/
def pad3 (l : List String) : List String :=
  (l ++ List.replicate (3 - l.length) "").take 3

/-- `Processor._fallback_summary`. -/
def fallback_summary (text : String) (title : Option String) : List String :=
  let sents := split_sentences_ko text
  let picked := (sortDescBy scoreSent sents).take 3
  let picked :=
    match title with
    | some t =>
      if pstrip t ≠ "" then
        match picked with
        | [] => [pstrip t]
        | p0 :: _ => if containsSub p0 (pstrip t) then picked else pstrip t :: picked
      else picked
    | none => picked
  pad3 ((picked.take 3).map close_sentence)

/-- `Processor.summarize`.  `reply` models the enrichment collaborator:
`some ls` is a reachable LLM whose parsed reply carried `summary_lines = ls`
(`[]` when the key was absent), `none` is an unavailable LLM or a failed
call; either failure routes to the rule-based fallback, per §4.6. -/
def summarize (reply : Option (List Json)) (text : String)
    (title : Option String) : List String :=
  let text := pstrip text
  match reply with
  | some ls =>
    if 1 ≤ text.length then
      let lines := ls.filterMap (fun v =>
        match v with
        | Json.str s => some s
        | _ => none)
      let lines := (lines.filter (fun ln => pstrip ln ≠ "")).map close_sentence
      if 1 ≤ lines.length then (lines ++ ["", "", ""]).take 3
      else fallback_summary text title
    else fallback_summary text title
  | none => fallback_summary text title

/-- Token characters of `_auto_keywords` (`[0-9A-Za-z가-힣]`). -/
def isTokChar (c : Char) : Bool := isDig c || isAsciiLetter c || isHangul c

/-- Tokenizer for `re.split(r"[^0-9A-Za-z가-힣]+", ·)` (empty pieces are
dropped; the caller's length filter discards them anyway). -/
def tokAcc : List Char → List Char → List (List Char)
  | acc, [] => if acc.isEmpty then [] else [acc.reverse]
  | acc, c :: rest =>
    if isTokChar c then tokAcc (c :: acc) rest
    else if acc.isEmpty then tokAcc [] rest
    else acc.reverse :: tokAcc [] rest

/-- `_auto_keywords`: frequency count in first-occurrence order, stable
descending sort, top `topk`. -/
def auto_keywords (text : String) (topk : Nat) : List String :=
  let tokens := (tokAcc [] text.data).map (fun t => (⟨t⟩ : String))
  let tokens := tokens.filter (fun t => 2 ≤ t.length && !STOPWORDS.contains t)
  let counts := tokens.foldl (fun acc t =>
    if acc.any (fun p => p.1 = t) then
      acc.map (fun p => if p.1 = t then (p.1, p.2 + 1) else p)
    else acc ++ [(t, 1)]) []
  ((sortDescBy Prod.snd counts).take topk).map Prod.fst

/-- Python `str.replace` (left-to-right, non-overlapping). -/
def replaceAllF : Nat → List Char → List Char → List Char → List Char
  | 0, l, _, _ => l
  | _ + 1, [], _, _ => []
  | fuel + 1, c :: rest, pat, repl =>
    if !pat.isEmpty && prefixAt (c :: rest) pat then
      repl ++ replaceAllF fuel ((c :: rest).drop pat.length) pat repl
    else c :: replaceAllF fuel rest pat repl

def replaceAll (s pat repl : String) : String :=
  ⟨replaceAllF (s.data.length + 1) s.data pat.data repl.data⟩

/-- `_normalize_subs`: per entry collapse whitespace, strip, drop blanks,
canonicalize `R&D`/`AI` spellings, then pad to 4. -/
def normalize_subs (subs : List String) : List String :=
  let cleaned := subs.filterMap (fun s =>
    let s := pstrip ⟨collapseAllWS s.data⟩
    if s = "" then none
    else
      let s := replaceAll s "R & D" "R&D"
      let s := replaceAll s "r&d" "R&D"
      let s := if pyLower s = "ai" || pyLower s = "인공지능" then "AI" else s
      some s)
  pad4p cleaned

/-- The per-category preferred keywords of `_suggest_subs_from_text`
(`pref_map.get(primary, [])`). -/
def prefMap (primary : String) : List String :=
  if primary = "사회" then ["행사", "축제", "문화", "복지", "교육", "시민", "청년", "노인"]
  else if primary = "투자_금융" then ["금융", "보험", "대출", "보조금", "세제", "지원"]
  else if primary = "산업_기업" then ["기업", "산업", "생산", "공장", "유통", "안전"]
  else if primary = "연구_기술" then ["R&D", "AI", "기술", "혁신", "연구", "개발"]
  else if primary = "규제_제도" then ["규제완화", "제도개선", "개정", "법안", "시행령"]
  else if primary = "수출_글로벌" then ["수출", "무역", "해외", "글로벌", "FTA"]
  else if primary = "인사_조직" then ["채용", "고용", "임금", "노사", "근로시간"]
  else if primary = "정책_정부" then ["정책", "정부", "부처", "위원회"]
  else []

/-- The collection loop of `_suggest_subs_from_text`: strip, skip blanks and
repeats, stop once six are collected (checked after each append). -/
def collectSix : List String → List String → List String
  | [], out => out.reverse
  | k :: ks, out =>
    let k := pstrip k
    if k = "" || out.contains k then collectSix ks out
    else
      let out := k :: out
      if 6 ≤ out.length then out.reverse else collectSix ks out

/-- `Processor._suggest_subs_from_text`. -/
def suggest_subs_from_text (text : String) (title : Option String)
    (region primary : String) : List String :=
  let base := (title.getD "") ++ " " ++ text
  let keys := auto_keywords base 12
  let prefer := prefMap primary
  let prefer :=
    if region ≠ "" && region ≠ "전국" then prefer ++ [region, "지자체", "지역"]
    else prefer
  collectSix (prefer ++ keys ++ SUBCATEGORY_HINTS) []

/-- One `bump(cat, n)` on the score table (all categories are pre-seeded, so
the update preserves key order). -/
def bump (scores : List (String × Nat)) (cat : String) (n : Nat) :
    List (String × Nat) :=
  scores.map (fun p => if p.1 = cat then (p.1, p.2 + n) else p)

def finTerms : List String :=
  ["대출", "은행", "보험", "카드", "신용", "금감원", "채무조정", "연체",
   "보험료", "금융지원", "보조금", "세제"]
def safetyTerms : List String :=
  ["산업재해", "산재", "중대재해", "노동안전", "안전사고", "산업안전"]
def tradeTerms : List String := ["수출", "무역", "해외", "글로벌", "fta"]
def rndTerms : List String :=
  ["r&d", "연구", "기술", "ai", "인공지능", "혁신", "디지털전환"]
def emplTerms : List String := ["채용", "고용", "임금", "노사", "근로시간"]
def eventTerms : List String :=
  ["행사", "축제", "기념식", "경축식", "초대합니다", "페스티벌", "시민 참여",
   "광복", "문화", "공연", "전시"]
def commerceTerms : List String :=
  ["농축산물", "전통시장", "온누리상품권", "하나로마트", "할인", "쿠폰",
   "소비진작", "환급"]
def regulTerms : List String :=
  ["규제 완화", "규제완화", "제도 개선", "제도개선", "개정", "시행령",
   "시행규칙", "법안", "조례"]
def headGovTerms : List String :=
  ["대통령", "국무회의", "국정", "국정운영", "청와대", "국무위원"]
def govTerms : List String :=
  ["정부", "부처", "위원회", "정책", "정부합동", "국정브리핑"]
def regionEventTerms : List String := ["행사", "축제", "기념식", "페스티벌"]

/-- The lowercased `title + " " + text` blob scanned by
`_fallback_classify`. -/
def classifyBlob (text : String) (title : Option String) : String :=
  pyLower ((title.getD "") ++ " " ++ text)

/-- The score table of `_fallback_classify` after all bumps, in the source's
bump order (scores and subcategory accumulation are independent, so they are
modelled as two passes over the same conditions). -/
def classify_scores (text : String) (title : Option String) (region : String) :
    List (String × Nat) :=
  let t := classifyBlob text title
  let s := PRIMARY_CATEGORIES.map (fun c => (c, 0))
  let s := if hasAny t finTerms then bump s "투자_금융" 5 else s
  let s := if hasAny t safetyTerms then bump s "산업_기업" 5 else s
  let s := if hasAny t tradeTerms then bump s "수출_글로벌" 5 else s
  let s := if hasAny t rndTerms then bump s "연구_기술" 5 else s
  let s := if hasAny t emplTerms then bump s "인사_조직" 4 else s
  let s := if hasAny t eventTerms then bump s "사회" 4 else s
  let s := if hasAny t commerceTerms then bump s "사회" 3 else s
  let s := if hasAny t regulTerms then bump s "규제_제도" 3 else s
  let s := if hasAny t headGovTerms then bump s "정책_정부" 3 else s
  let s := if hasAny t govTerms then bump s "정책_정부" 1 else s
  if region ≠ "전국" && hasAny t regionEventTerms then bump s "사회" 2 else s

/-- The raw subcategory accumulation of `_fallback_classify`, in bump
order. -/
def classify_subs_raw (text : String) (title : Option String) : List String :=
  let t := classifyBlob text title
  let u : List String := []
  let u := if hasAny t finTerms then u ++ ["금융지원", "세제"] else u
  let u := if hasAny t safetyTerms then u ++ ["안전관리"] else u
  let u := if hasAny t tradeTerms then u ++ ["수출"] else u
  let u := if hasAny t rndTerms then u ++ ["R&D", "AI"] else u
  let u := if hasAny t emplTerms then u ++ ["채용"] else u
  let u := if hasAny t eventTerms then u ++ ["행사", "문화"] else u
  let u := if hasAny t commerceTerms then u ++ ["지역경제"] else u
  let u := if hasAny t regulTerms then u ++ ["제도개선", "규제완화"] else u
  let u := if hasAny t headGovTerms then u ++ ["정책"] else u
  let u := if hasAny t govTerms then u ++ ["정책"] else u
  u

/-- `max(scores.values())`. -/
def max_score (scores : List (String × Nat)) : Nat :=
  (scores.map Prod.snd).foldr max 0

/-- `[cat for cat, sc in scores.items() if sc == max_score]`. -/
def tied_cats (scores : List (String × Nat)) : List String :=
  (scores.filter (fun p => p.2 = max_score scores)).map Prod.fst

/-- The tie-break of `_fallback_classify`: catch-all on all-zero scores, the
unique maximum when there is one, otherwise the first tied non-policy label,
falling back to the first tied label. -/
def pick_primary (scores : List (String × Nat)) : String :=
  if max_score scores = 0 then "기타"
  else
    match tied_cats scores with
    | [] => "기타"
    | [c] => c
    | c :: cs =>
      match (c :: cs).filter (fun x => x ≠ "정책_정부") with
      | [] => c
      | d :: _ => d

/-- `Processor._fallback_classify`. -/
def fallback_classify (text : String) (title : Option String)
    (region : String) : String × List String :=
  let scores := classify_scores text title region
  let primary := pick_primary scores
  let subs := normalize_subs (classify_subs_raw text title)
  let subs :=
    if subs.contains "" then
      normalize_subs (subs ++ suggest_subs_from_text text title region primary)
    else subs
  (primary, subs)

/-- `Processor.classify` in rule-based mode (`LLMClient.from_env` raised
`LLMUnavailable`, so `self.llm is None`): region first, then the fallback
classifier, per §4.6's degradation contract. -/
def classify_rb (text : String) (title : Option String) : String × List String :=
  let region := detect_region text title
  fallback_classify text title region

/-- One published record of `main`'s output array. -/
structure OutputRec where
  newsItemId : Option String
  title : String
  summary : String
  summary_lines : List String
  category : String
  subcategories : List String
  region : String
  hasHtml : Bool
  length_chars : Nat
  deriving Repr, DecidableEq

/-- The body of `main`'s per-item loop, in rule-based mode. -/
def process_item (item : NormItem) : OutputRec :=
  let text := item.plain_text
  let s := summarize none text (some item.title)
  let summary_lines := if s.isEmpty then [] else s
  let pc := classify_rb text (some item.title)
  let region0 := detect_region text (some item.title)
  { newsItemId := item.newsItemId
    title := item.title
    summary := String.intercalate "\n" (summary_lines.take 3)
    summary_lines := summary_lines.take 3
    category := pc.1
    subcategories := pad4 pc.2
    region := if region0 = "" then "전국" else region0
    hasHtml := item.hasHtml
    length_chars := text.length }

/-- `main` on the decoded input text: load, normalize, process each item in
order, publish the results array. -/
def pipeline_results (text : String) : List OutputRec :=
  ((load_input text).map normalize_item).map process_item

/-! ## Lemmas -/

theorem pad3_length (l : List String) : (pad3 l).length = 3 := by
  simp only [pad3, List.length_take, List.length_append, List.length_replicate]
  omega

theorem fallback_summary_length (text : String) (title : Option String) :
    (fallback_summary text title).length = 3 := by
  unfold fallback_summary
  exact pad3_length _

/-! ## Claim theorems -/

/-- C8: on the input text `[{"a":1}][{"b":2}]` — an array immediately
followed by another array with a missing separator — the loader produces
exactly the two records `{"a":1}` and `{"b":2}`, in that order (the whole
text fails `json.loads`, the multi-value scanner then decodes the two arrays
in sequence, and the merge collects their object members in order). -/
theorem c8_adjacent_arrays :
    load_input "[\x7b\"a\":1\x7d][\x7b\"b\":2\x7d]" =
      [Json.obj [("a", Json.num 1)], Json.obj [("b", Json.num 2)]] := by
  rfl

/-- C6: `detect_region` scans the full-form alias table before the canonical
short names and returns the canonical short form of the first alias found in
`title`-then-`body`; in particular an input whose only present alias is a
full form (even when its canonical short form also occurs, as a substring of
it or otherwise) yields the canonical short form; and an input containing no
alias and no short region name yields the sentinel `전국`. -/
theorem c6_detect_region :
    (∀ (text : String) (title : Option String) (a b : String),
      REGION_ALIASES.find?
          (fun p => containsSub ((title.getD "") ++ "\n" ++ text) p.1) =
        some (a, b) →
      detect_region text title = b ∧ (a, b) ∈ REGION_ALIASES ∧
        containsSub ((title.getD "") ++ "\n" ++ text) a = true) ∧
    (∀ (text : String) (title : Option String),
      (∀ p ∈ REGION_ALIASES,
        containsSub ((title.getD "") ++ "\n" ++ text) p.1 = false) →
      (∀ kw ∈ REGION_KWS,
        containsSub ((title.getD "") ++ "\n" ++ text) kw = false) →
      detect_region text title = "전국") := by
  constructor
  · intro text title a b hfind
    have h2 := List.find?_some hfind
    refine ⟨?_, List.mem_of_find?_eq_some hfind, by simpa using h2⟩
    simp only [detect_region]
    rw [hfind]
  · intro text title halias hkw
    have h1 : REGION_ALIASES.find?
        (fun p => containsSub ((title.getD "") ++ "\n" ++ text) p.1) = none :=
      List.find?_eq_none.mpr (fun p hmem => by simp [halias p hmem])
    have h2 : REGION_KWS.find?
        (fun kw => containsSub ((title.getD "") ++ "\n" ++ text) kw) = none :=
      List.find?_eq_none.mpr (fun kw hmem => by simp [hkw kw hmem])
    simp only [detect_region]
    rw [h1, h2]

theorem coerce_id_ne_empty (v : Json) : coerce_id v ≠ some "" := by
  cases v <;> simp only [coerce_id] <;> (try split) <;> simp_all

theorem dedupFirstF_sublist : ∀ (f : Nat) (l : List String), List.Sublist (dedupFirstF f l) l := by
  intro f
  induction f with
  | zero => intro l; exact List.Sublist.refl l
  | succ f ih =>
    intro l
    cases l with
    | nil => exact List.Sublist.refl []
    | cons x xs =>
      simp only [dedupFirstF]
      exact List.Sublist.cons₂ x ((ih _).trans (List.filter_sublist xs))

theorem dedupFirstF_nodup : ∀ (f : Nat) (l : List String), l.length < f →
    (dedupFirstF f l).Nodup := by
  intro f
  induction f with
  | zero => intro l h; omega
  | succ f ih =>
    intro l h
    cases l with
    | nil => simp [dedupFirstF]
    | cons x xs =>
      simp only [dedupFirstF, List.nodup_cons]
      refine ⟨fun hmem => ?_, ?_⟩
      · have h2 := (dedupFirstF_sublist f _).subset hmem
        simp at h2
      · refine ih _ ?_
        have h3 := List.length_filter_le (fun y => y ≠ x) xs
        simp only [List.length_cons] at h
        omega

theorem indexOf_filter_lt {p : String → Bool} :
    ∀ (l : List String) (a b : String), a ∈ l.filter p → b ∈ l.filter p →
      (l.filter p).indexOf a < (l.filter p).indexOf b →
      l.indexOf a < l.indexOf b := by
  intro l
  induction l with
  | nil => intro a b ha _ _; simp at ha
  | cons h tl ih =>
    intro a b ha hb hlt
    by_cases hph : p h
    · rw [List.filter_cons_of_pos hph] at ha hb hlt
      by_cases hbh : b = h
      · subst hbh
        rw [List.indexOf_cons_self] at hlt
        omega
      · by_cases hah : a = h
        · subst hah
          rw [List.indexOf_cons_self, List.indexOf_cons_ne _ (Ne.symm hbh)]
          exact Nat.succ_pos _
        · rw [List.indexOf_cons_ne _ (Ne.symm hah),
            List.indexOf_cons_ne _ (Ne.symm hbh)] at hlt
          rw [List.indexOf_cons_ne _ (Ne.symm hah),
            List.indexOf_cons_ne _ (Ne.symm hbh)]
          exact Nat.succ_lt_succ (ih a b (List.mem_of_ne_of_mem hah ha)
            (List.mem_of_ne_of_mem hbh hb) (Nat.lt_of_succ_lt_succ hlt))
    · rw [List.filter_cons_of_neg hph] at ha hb hlt
      have hah : a ≠ h := fun e => hph (e ▸ List.of_mem_filter ha)
      have hbh : b ≠ h := fun e => hph (e ▸ List.of_mem_filter hb)
      rw [List.indexOf_cons_ne _ (Ne.symm hah), List.indexOf_cons_ne _ (Ne.symm hbh)]
      exact Nat.succ_lt_succ (ih a b ha hb hlt)

theorem dedupFirstF_pairwise : ∀ (f : Nat) (l : List String), l.length < f →
    List.Pairwise (fun a b => l.indexOf a < l.indexOf b) (dedupFirstF f l) := by
  intro f
  induction f with
  | zero => intro l h; omega
  | succ f ih =>
    intro l h
    cases l with
    | nil => simp [dedupFirstF]
    | cons x xs =>
      simp only [dedupFirstF, List.pairwise_cons]
      constructor
      · intro b hb
        have hbf : b ∈ xs.filter (fun y => y ≠ x) :=
          (dedupFirstF_sublist f _).subset hb
        have hbx : b ≠ x := by simpa using List.of_mem_filter hbf
        rw [List.indexOf_cons_self, List.indexOf_cons_ne _ (Ne.symm hbx)]
        exact Nat.succ_pos _
      · have hlen : (xs.filter (fun y => y ≠ x)).length < f := by
          have h3 := List.length_filter_le (fun y => y ≠ x) xs
          simp only [List.length_cons] at h
          omega
        refine (ih _ hlen).imp_of_mem ?_
        intro a b ha hb hR
        have haf : a ∈ xs.filter (fun y => y ≠ x) :=
          (dedupFirstF_sublist f _).subset ha
        have hbf : b ∈ xs.filter (fun y => y ≠ x) :=
          (dedupFirstF_sublist f _).subset hb
        have hax : a ≠ x := by simpa using List.of_mem_filter haf
        have hbx : b ≠ x := by simpa using List.of_mem_filter hbf
        rw [List.indexOf_cons_ne _ (Ne.symm hax), List.indexOf_cons_ne _ (Ne.symm hbx)]
        exact Nat.succ_lt_succ (indexOf_filter_lt xs a b haf hbf hR)

/-- The shape required of a pad-to-4 output relative to the kept source
entries: length exactly 4, non-empty entries pairwise distinct, all empties
trailing, non-empty entries a subsequence of the source, appearing in the
order of their first occurrences (`indexOf`) in the source. -/
def PadShape (src out : List String) : Prop :=
  out.length = 4 ∧
  (out.filter (fun x => x ≠ "")).Nodup ∧
  (∀ i j (hi : i < out.length) (hj : j < out.length), i ≤ j →
    out.get ⟨i, hi⟩ = "" → out.get ⟨j, hj⟩ = "") ∧
  List.Sublist (out.filter (fun x => x ≠ "")) src ∧
  List.Pairwise (fun a b => src.indexOf a < src.indexOf b)
    (out.filter (fun x => x ≠ ""))

theorem pad_core (src : List String) (hsrc : ∀ x ∈ src, x ≠ "") :
    PadShape src ((dedupFirst src).take 4 ++
      List.replicate (4 - ((dedupFirst src).take 4).length) "") := by
  have hkd : List.Sublist ((dedupFirst src).take 4) (dedupFirst src) := List.take_sublist 4 _
  have hds : List.Sublist (dedupFirst src) src := dedupFirstF_sublist _ _
  have hks : List.Sublist ((dedupFirst src).take 4) src := hkd.trans hds
  have hkne : ∀ x ∈ (dedupFirst src).take 4, x ≠ "" :=
    fun x hx => hsrc x (hks.subset hx)
  have hkfilter : ((dedupFirst src).take 4).filter (fun x => x ≠ "") =
      (dedupFirst src).take 4 :=
    List.filter_eq_self.mpr (fun x hx => by simpa using hkne x hx)
  have hrfilter :
      (List.replicate (4 - ((dedupFirst src).take 4).length) "").filter
        (fun x => x ≠ "") = [] := by
    refine List.filter_eq_nil_iff.mpr (fun a ha => ?_)
    have := List.eq_of_mem_replicate ha
    simp [this]
  have hfilter :
      (((dedupFirst src).take 4 ++
        List.replicate (4 - ((dedupFirst src).take 4).length) "").filter
          (fun x => x ≠ "")) = (dedupFirst src).take 4 := by
    rw [List.filter_append, hkfilter, hrfilter, List.append_nil]
  have hklen : ((dedupFirst src).take 4).length ≤ 4 := by
    simp [List.length_take]
  refine ⟨?_, ?_, ?_, ?_, ?_⟩
  · simp only [List.length_append, List.length_replicate]
    omega
  · rw [hfilter]
    exact (dedupFirstF_nodup _ src (by omega)).sublist hkd
  · intro i j hi hj hij hieq
    by_cases hik : i < ((dedupFirst src).take 4).length
    · exfalso
      have : ((dedupFirst src).take 4 ++
          List.replicate (4 - ((dedupFirst src).take 4).length) "").get ⟨i, hi⟩ =
          ((dedupFirst src).take 4).get ⟨i, hik⟩ := by
        simp [List.get_eq_getElem, List.getElem_append_left hik]
      rw [this] at hieq
      exact hkne _ (List.get_mem _ _ hik) hieq
    · have hjk : ((dedupFirst src).take 4).length ≤ j := by omega
      have : ((dedupFirst src).take 4 ++
          List.replicate (4 - ((dedupFirst src).take 4).length) "").get ⟨j, hj⟩ =
          "" := by
        simp [List.get_eq_getElem, List.getElem_append_right hjk]
      exact this
  · rw [hfilter]
    exact hks
  · rw [hfilter]
    exact ((dedupFirstF_pairwise _ src (by omega)).sublist hkd)

/-- C3: both pad-to-4 transforms (`pipeline._pad4` applied to the output
records' subcategories, and `processors._pad4`) return exactly 4 strings in
which the non-empty entries are pairwise distinct, precede every empty
entry, and appear as a subsequence of the kept source entries in
first-occurrence (`indexOf`) order; and every output record's subcategories
field is produced by `pipeline._pad4`. -/
theorem c3_pad4_shape :
    (∀ xs : List String,
      PadShape (xs.filter (fun x => pstrip x ≠ "")) (pad4 xs)) ∧
    (∀ xs : List String,
      PadShape ((xs.filter (fun x => pstrip x ≠ "")).map pstrip) (pad4p xs)) ∧
    (∀ it : NormItem, ∃ ys : List String,
      (process_item it).subcategories = pad4 ys) := by
  refine ⟨?_, ?_, fun it => ⟨(classify_rb it.plain_text (some it.title)).2, rfl⟩⟩
  · intro xs
    refine pad_core _ (fun x hx => ?_)
    intro he
    subst he
    have h2 := List.of_mem_filter hx
    simp only [decide_eq_true_eq] at h2
    exact h2 rfl
  · intro xs
    refine pad_core _ (fun x hx => ?_)
    obtain ⟨y, hy, hxy⟩ := List.mem_map.mp hx
    have := List.of_mem_filter hy
    intro he
    rw [← hxy] at he
    simp [he] at this

/-- Witness for C3: `["b", " ", "a", "b"]` pads to `["b", "a", "", ""]`, of
length 4 with the trailing entry empty. -/
theorem c3_pad4_shape_witness :
    (pad4 ["b", " ", "a", "b"]).length = 4 ∧
    (pad4 ["b", " ", "a", "b"]).get ⟨3, by decide⟩ = "" := by
  refine ⟨(c3_pad4_shape.1 ["b", " ", "a", "b"]).1, ?_⟩
  exact (c3_pad4_shape.1 ["b", " ", "a", "b"]).2.2.1 2 3 (by decide) (by decide)
    (by decide) (by decide)

theorem finalItems_ne_nil (raw : String) (items : List Json) :
    finalItems raw items ≠ [] := by
  unfold finalItems
  split
  · exact List.cons_ne_nil _ _
  · next hcond =>
    intro h
    rw [h] at hcond
    simp at hcond

theorem afterValues_ne_nil (values : List Json) (raw : String) :
    afterValues values raw ≠ [] := by
  simp only [afterValues]
  apply finalItems_ne_nil

theorem jsonlTry_some_ne_nil {raw : String} {p : List Json}
    (h : jsonlTry raw = some p) : p ≠ [] := by
  unfold jsonlTry at h
  split at h
  · rcases hall : allParse ((splitLines raw).filter (fun ln => pstrip ln ≠ "")) with
      _ | parsed
    · rw [hall] at h
      exact Option.noConfusion h
    · rw [hall] at h
      dsimp only at h
      split at h
      · next hguard =>
        obtain ⟨hne, _⟩ := Bool.and_eq_true_iff.mp hguard
        injection h with h2
        rw [← h2]
        intro he
        rw [he] at hne
        simp at hne
      · exact Option.noConfusion h
  · exact Option.noConfusion h

/-- C7: when the trimmed input is non-empty and every JSON parse strategy
fails (JSON Lines attempt, whole-text `json.loads`, and the multi-value
scanner), loading returns exactly one record, `{"title": "", "text": raw}`
with the entire raw text as body; and loading a non-empty input never
returns zero records, on any strategy path. -/
theorem c7_plain_text_fallback :
    (∀ text : String,
      pstrip text ≠ "" →
      jsonlTry (pstrip text) = none →
      pyLoads (pstrip text) = none →
      parse_multiple_json_values (pstrip text) = none →
      load_input text = [plain_record (pstrip text)] ∧
      plain_record (pstrip text) =
        Json.obj [("title", Json.str ""), ("text", Json.str (pstrip text))]) ∧
    (∀ text : String, pstrip text ≠ "" → load_input text ≠ []) := by
  constructor
  · intro text hne hjsonl hloads hmulti
    refine ⟨?_, rfl⟩
    simp only [load_input]
    rw [if_neg hne, hjsonl, hloads, hmulti]
  · intro text hne
    simp only [load_input]
    rw [if_neg hne]
    cases hj : jsonlTry (pstrip text) with
    | some p => exact jsonlTry_some_ne_nil hj
    | none =>
      cases hl : pyLoads (pstrip text) with
      | some d => exact afterValues_ne_nil [d] (pstrip text)
      | none =>
        cases hm : parse_multiple_json_values (pstrip text) with
        | some v => exact afterValues_ne_nil v (pstrip text)
        | none => exact List.cons_ne_nil _ _

/-- Witness for C7: on the non-JSON text `hello` every strategy fails and the
loader returns the single plain-text record. -/
theorem c7_plain_text_fallback_witness :
    load_input "hello" = [plain_record (pstrip "hello")] ∧
    load_input "hello" ≠ [] := by
  constructor
  · exact (c7_plain_text_fallback.1 "hello" (by decide) rfl rfl rfl).1
  · exact c7_plain_text_fallback.2 "hello" (by decide)

theorem dropWhile_head_not (p : Char → Bool) (l : List Char) (c : Char)
    (h : (l.dropWhile p).head? = some c) : p c = false := by
  induction l with
  | nil => simp at h
  | cons x xs ih =>
    by_cases hx : p x
    · rw [List.dropWhile_cons_of_pos hx] at h
      exact ih h
    · rw [List.dropWhile_cons_of_neg hx] at h
      simp only [List.head?_cons, Option.some.injEq] at h
      rw [← h]
      exact Bool.eq_false_iff.mpr hx

theorem pstripL_as_rdrop (l : List Char) :
    pstripL l = List.rdropWhile pyWs (l.dropWhile pyWs) := rfl

theorem prefix_head_eq {l1 l2 : List Char} (h : l1 <+: l2) (hne : l1 ≠ []) :
    l1.head? = l2.head? := by
  obtain ⟨t, rfl⟩ := h
  cases l1 with
  | nil => exact absurd rfl hne
  | cons c r => rfl

theorem pstripL_head_not (l : List Char) (c : Char)
    (h : (pstripL l).head? = some c) : pyWs c = false := by
  have hpre : pstripL l <+: l.dropWhile pyWs := by
    rw [pstripL_as_rdrop]
    exact List.rdropWhile_prefix _ _
  have hne : pstripL l ≠ [] := by
    intro he
    rw [he] at h
    exact Option.noConfusion h
  have := prefix_head_eq hpre hne
  rw [this] at h
  exact dropWhile_head_not pyWs l c h

theorem pstrip_no_leading (text : String) :
    pstripLeftL (pstrip text).data = (pstrip text).data := by
  cases hd : (pstrip text).data with
  | nil => rfl
  | cons c r =>
    have hd2 : pstripL text.data = c :: r := hd
    have hc : pyWs c = false := by
      apply pstripL_head_not text.data
      rw [hd2]
      rfl
    simp only [pstripLeftL]
    exact List.dropWhile_cons_of_neg (by simp [hc])

theorem mem_dropWhile_of_not (p : Char → Bool) (l : List Char) (c : Char)
    (hm : c ∈ l) (hc : p c = false) : c ∈ l.dropWhile p := by
  induction l with
  | nil => simp at hm
  | cons x xs ih =>
    by_cases hx : p x
    · rw [List.dropWhile_cons_of_pos hx]
      cases List.mem_cons.mp hm with
      | inl he => rw [he] at hc; rw [hc] at hx; exact absurd hx (by simp)
      | inr hm2 => exact ih hm2
    · rw [List.dropWhile_cons_of_neg hx]
      exact hm

theorem pstripL_ne_nil_of_mem {l : List Char} {c : Char} (hm : c ∈ l)
    (hc : pyWs c = false) : pstripL l ≠ [] := by
  rw [pstripL_as_rdrop]
  intro he
  have h2 := List.rdropWhile_eq_nil_iff.mp he
  have h3 := h2 c (mem_dropWhile_of_not pyWs l c hm hc)
  rw [hc] at h3
  exact Bool.noConfusion h3

theorem allParse_length : ∀ (ls : List String) (vs : List Json),
    allParse ls = some vs → vs.length = ls.length := by
  intro ls
  induction ls with
  | nil => intro vs h; injection h with h2; rw [← h2]; rfl
  | cons ln rest ih =>
    intro vs h
    simp only [allParse] at h
    cases hp : pyLoads ln with
    | none => rw [hp] at h; exact Option.noConfusion h
    | some v =>
      rw [hp] at h
      cases ha : allParse rest with
      | none => rw [ha] at h; exact Option.noConfusion h
      | some vs2 =>
        rw [ha] at h
        injection h with h2
        rw [← h2]
        simp [ih vs2 ha]

theorem splitLinesF_head (f : Nat) (c : Char) (r : List Char)
    (hc : (c ≠ '\n' && c ≠ '\x0d') = true) :
    ∃ rest, splitLinesF (f + 1) (c :: r) =
      (c :: r.takeWhile (fun x => x ≠ '\n' && x ≠ '\x0d')) :: rest := by
  simp only [splitLinesF, List.takeWhile_cons, hc, if_true]
  split
  · exact ⟨[], rfl⟩
  · exact ⟨_, rfl⟩
  · exact ⟨_, rfl⟩

theorem pstrip_ne_empty_of_mem {l : List Char} {c : Char} (hm : c ∈ l)
    (hc : pyWs c = false) : pstrip (⟨l⟩ : String) ≠ "" := by
  intro he
  have h2 : pstripL l = [] := congrArg String.data he
  exact pstripL_ne_nil_of_mem hm hc h2

/-- C9: when the trimmed input begins with a brace and contains a newline,
and every non-blank line independently parses as a JSON object, the loader
returns exactly the per-line objects in line order; and whenever the JSON
Lines attempt fails (a non-parsing or non-object line), the loader proceeds
with the remaining strategies (`json.loads`, the multi-value scanner, the
plain-text record). -/
theorem c9_jsonl_mode :
    (∀ (text : String) (parsed : List Json),
      (match pstripLeftL (pstrip text).data with
        | c :: _ => c = lbrace
        | [] => false) = true →
      (pstrip text).data.contains '\n' = true →
      allParse ((splitLines (pstrip text)).filter (fun ln => pstrip ln ≠ "")) =
        some parsed →
      parsed.all isObj = true →
      load_input text = parsed) ∧
    (∀ text : String,
      pstrip text ≠ "" →
      jsonlTry (pstrip text) = none →
      load_input text =
        (match pyLoads (pstrip text) with
         | some data => afterValues [data] (pstrip text)
         | none =>
           match parse_multiple_json_values (pstrip text) with
           | some values => afterValues values (pstrip text)
           | none => [plain_record (pstrip text)])) := by
  constructor
  · intro text parsed hhead hnl hall hobj
    have hne : pstrip text ≠ "" := by
      intro he
      rw [he] at hhead
      simp [pstripLeftL] at hhead
    have hlines : ∃ first rest2,
        (splitLines (pstrip text)).filter (fun ln => pstrip ln ≠ "") =
          first :: rest2 := by
      rw [pstrip_no_leading text] at hhead
      cases hd : (pstrip text).data with
      | nil => rw [hd] at hhead; simp at hhead
      | cons c r =>
        rw [hd] at hhead
        have hc : c = lbrace := by simpa using hhead
        obtain ⟨rest, hr⟩ :=
          splitLinesF_head (r.length + 1) c r (by rw [hc]; decide)
        have hsl : splitLines (pstrip text) =
            (⟨c :: r.takeWhile (fun x => x ≠ '\n' && x ≠ '\x0d')⟩ : String) ::
              rest.map (fun l => (⟨l⟩ : String)) := by
          unfold splitLines
          rw [hd]
          have hlen : (c :: r).length + 1 = r.length + 1 + 1 := by simp
          rw [hlen, hr]
          simp
        rw [hsl]
        rw [List.filter_cons_of_pos (by
          simp only [decide_eq_true_eq]
          exact pstrip_ne_empty_of_mem (List.mem_cons_self c _)
            (by rw [hc]; decide))]
        exact ⟨_, _, rfl⟩
    have hne2 : parsed ≠ [] := by
      obtain ⟨first, rest2, hl⟩ := hlines
      have hlen := allParse_length _ _ hall
      rw [hl] at hlen
      intro he
      rw [he] at hlen
      simp at hlen
    have hjt : jsonlTry (pstrip text) = some parsed := by
      unfold jsonlTry
      have hcond := Bool.and_eq_true_iff.mpr ⟨hhead, hnl⟩
      rw [if_pos hcond, hall]
      dsimp only
      rw [if_pos (Bool.and_eq_true_iff.mpr ⟨?_, hobj⟩)]
      cases parsed with
      | nil => exact absurd rfl hne2
      | cons _ _ => rfl
    simp only [load_input]
    rw [if_neg hne, hjt]
  · intro text hne hjt
    simp only [load_input]
    rw [if_neg hne, hjt]

/-- Witness for C9: two newline-separated objects load as exactly those two
objects in line order; with a non-object second line the mode is abandoned
and the multi-value strategy recovers the first object. -/
theorem c9_jsonl_mode_witness :
    load_input "\x7b\"a\":1\x7d\n\x7b\"b\":2\x7d" =
      [Json.obj [("a", Json.num 1)], Json.obj [("b", Json.num 2)]] ∧
    load_input "\x7b\"a\":1\x7d\n[2]" =
      (match pyLoads (pstrip "\x7b\"a\":1\x7d\n[2]") with
       | some data => afterValues [data] (pstrip "\x7b\"a\":1\x7d\n[2]")
       | none =>
         match parse_multiple_json_values (pstrip "\x7b\"a\":1\x7d\n[2]") with
         | some values => afterValues values (pstrip "\x7b\"a\":1\x7d\n[2]")
         | none => [plain_record (pstrip "\x7b\"a\":1\x7d\n[2]")]) := by
  constructor
  · exact c9_jsonl_mode.1 "\x7b\"a\":1\x7d\n\x7b\"b\":2\x7d"
      [Json.obj [("a", Json.num 1)], Json.obj [("b", Json.num 2)]]
      rfl rfl rfl rfl
  · exact c9_jsonl_mode.2 "\x7b\"a\":1\x7d\n[2]" (by decide) rfl

theorem parseMembers_obj : ∀ (f : Nat) (l : List Char)
    (acc : List (String × Json)) (v : Json) (r : List Char),
    parseMembers f l acc = some (v, r) → ∃ fs, v = Json.obj fs := by
  intro f
  induction f with
  | zero => intro l acc v r h; exact Option.noConfusion h
  | succ f ih =>
    intro l acc v r h
    simp only [parseMembers] at h
    split at h
    · split at h
      · split at h
        · split at h
          · split at h
            · exact ih _ _ _ _ h
            · split at h
              · injection h with h2
                injection h2 with h3 _
                exact ⟨_, h3.symm⟩
              · exact Option.noConfusion h
            · exact Option.noConfusion h
          · exact Option.noConfusion h
        · exact Option.noConfusion h
      · exact Option.noConfusion h
    · exact Option.noConfusion h

theorem parseVal_lbrace_obj (f : Nat) (rest : List Char) (v : Json)
    (r : List Char) (h : parseVal f (lbrace :: rest) = some (v, r)) :
    ∃ fs, v = Json.obj fs := by
  cases f with
  | zero => exact Option.noConfusion h
  | succ f =>
    simp only [parseVal, if_true] at h
    cases hd : List.dropWhile jsonWs rest with
    | nil => rw [hd] at h; exact Option.noConfusion h
    | cons c2 r2 =>
      rw [hd] at h
      dsimp only at h
      by_cases hc2 : c2 = rbrace
      · rw [if_pos hc2] at h
        injection h with h2
        injection h2 with h3 _
        exact ⟨_, h3.symm⟩
      · rw [if_neg hc2] at h
        exact parseMembers_obj _ _ _ _ _ h

theorem jsonWs_pyWs (c : Char) (h : jsonWs c = true) : pyWs c = true := by
  simp only [jsonWs, Bool.or_eq_true, decide_eq_true_eq] at h
  rcases h with ((h | h) | h) | h <;> simp [pyWs, h]

theorem is_item_dict_isObj (j : Json) (h : is_item_dict j = true) :
    isObj j = true := by
  cases j <;> first | rfl | (simp [is_item_dict] at h)

theorem char_upper_bounds {c : Char} (h : ('A' ≤ c && c ≤ 'Z') = true) :
    65 ≤ c.toNat ∧ c.toNat ≤ 90 := by
  simp only [Bool.and_eq_true, decide_eq_true_eq] at h
  obtain ⟨h1, h2⟩ := h
  rw [Char.le_def] at h1 h2
  rw [UInt32.le_def] at h1 h2
  rw [BitVec.le_def] at h1 h2
  exact ⟨h1, h2⟩

theorem toNat_ofNat_valid {n : Nat} (h : n.isValidChar) :
    (Char.ofNat n).toNat = n := by
  unfold Char.ofNat
  rw [dif_pos h]
  rfl

theorem lowerChar_eq_lt {c : Char} (h : lowerChar c = '<') : c = '<' := by
  unfold lowerChar at h
  split at h
  · next hup =>
    exfalso
    obtain ⟨hb1, hb2⟩ := char_upper_bounds hup
    have hv : Nat.isValidChar (c.toNat + 32) := Or.inl (by omega)
    have h2 := congrArg Char.toNat h
    rw [toNat_ofNat_valid hv] at h2
    have h60 : ('<' : Char).toNat = 60 := rfl
    rw [h60] at h2
    omega
  · exact h

theorem prefixCI_lt_false {c : Char} (hc : c ≠ '<') (rest pat : List Char) :
    prefixCI (c :: rest) ('<' :: pat) = false := by
  by_cases hl : lowerChar c = '<'
  · exact absurd (lowerChar_eq_lt hl) hc
  · simp [prefixCI, hl]

theorem scriptStyleSubF_id : ∀ (f : Nat) (l : List Char),
    (∀ c ∈ l, c ≠ '<') → scriptStyleSubF f l = l := by
  intro f
  induction f with
  | zero => intro l _; rfl
  | succ f ih =>
    intro l h
    cases l with
    | nil => rfl
    | cons c rest =>
      have hc : c ≠ '<' := h c (by simp)
      simp only [scriptStyleSubF, prefixCI_lt_false hc, Bool.false_eq_true,
        if_false]
      rw [ih rest (fun x hx => h x (by simp [hx]))]

theorem brSubF_id : ∀ (f : Nat) (l : List Char),
    (∀ c ∈ l, c ≠ '<') → brSubF f l = l := by
  intro f
  induction f with
  | zero => intro l _; rfl
  | succ f ih =>
    intro l h
    cases l with
    | nil => rfl
    | cons c rest =>
      have hc : c ≠ '<' := h c (by simp)
      have hp : prefixCI (c :: rest) "<br".data = false := prefixCI_lt_false hc _ _
      simp only [brSubF, hp, Bool.false_eq_true, if_false]
      rw [ih rest (fun x hx => h x (by simp [hx]))]

theorem pSubF_id : ∀ (f : Nat) (l : List Char),
    (∀ c ∈ l, c ≠ '<') → pSubF f l = l := by
  intro f
  induction f with
  | zero => intro l _; rfl
  | succ f ih =>
    intro l h
    cases l with
    | nil => rfl
    | cons c rest =>
      have hc : c ≠ '<' := h c (by simp)
      have hp : prefixCI (c :: rest) "</p".data = false := prefixCI_lt_false hc _ _
      simp only [pSubF, hp, Bool.false_eq_true, if_false]
      rw [ih rest (fun x hx => h x (by simp [hx]))]

theorem tagSubF_id : ∀ (f : Nat) (l : List Char),
    (∀ c ∈ l, c ≠ '<') → tagSubF f l = l := by
  intro f
  induction f with
  | zero => intro l _; rfl
  | succ f ih =>
    intro l h
    cases l with
    | nil => rfl
    | cons c rest =>
      have hc : c ≠ '<' := h c (by simp)
      simp only [tagSubF, if_neg hc]
      rw [ih rest (fun x hx => h x (by simp [hx]))]

theorem unescapeF_id : ∀ (f : Nat) (l : List Char),
    (∀ c ∈ l, c ≠ '&') → unescapeF f l = l := by
  intro f
  induction f with
  | zero => intro l _; rfl
  | succ f ih =>
    intro l h
    cases l with
    | nil => rfl
    | cons c rest =>
      have hc : c ≠ '&' := h c (by simp)
      simp only [unescapeF, if_neg hc]
      rw [ih rest (fun x hx => h x (by simp [hx]))]

/-- No two adjacent horizontal-whitespace characters: the invariant that
makes `collapseWS` the identity. -/
def NoSpPair (l : List Char) : Prop :=
  List.Chain' (fun a b => ¬(spTab a = true ∧ spTab b = true)) l

theorem cws_one (c : Char) : collapseWS [c] = if spTab c then [' '] else [c] := by
  by_cases h : spTab c
  · simp only [collapseWS, h, if_true]
  · simp only [collapseWS, h, if_false]

theorem cws_two (c r : Char) (rs : List Char) :
    collapseWS (c :: r :: rs) =
      if spTab c then
        (if spTab r then collapseWS (r :: rs) else ' ' :: collapseWS (r :: rs))
      else c :: collapseWS (r :: rs) := rfl

theorem collapseWS_headq : ∀ l : List Char,
    (collapseWS l).head? = l.head?.map (fun c => if spTab c then ' ' else c) := by
  intro l
  induction l with
  | nil => rfl
  | cons c rest ih =>
    cases rest with
    | nil =>
      rw [cws_one]
      by_cases hc : spTab c <;> simp [hc]
    | cons r rs =>
      rw [cws_two]
      by_cases hc : spTab c
      · by_cases hr : spTab r
        · rw [if_pos hc, if_pos hr, ih]
          simp [hr, hc]
        · rw [if_pos hc, if_neg hr]
          simp [hc]
      · rw [if_neg hc]
        simp [hc]

theorem collapseWS_noTab : ∀ l : List Char, '\t' ∉ collapseWS l := by
  intro l
  induction l with
  | nil => simp [collapseWS]
  | cons c rest ih =>
    cases rest with
    | nil =>
      rw [cws_one]
      by_cases hc : spTab c
      · simp [hc]
      · simp only [hc, if_false]
        intro hm
        rcases List.mem_cons.mp hm with he | he
        · rw [← he] at hc
          exact hc (by decide)
        · simp at he
    | cons r rs =>
      rw [cws_two]
      by_cases hc : spTab c
      · by_cases hr : spTab r
        · rw [if_pos hc, if_pos hr]
          exact ih
        · rw [if_pos hc, if_neg hr]
          intro hm
          rcases List.mem_cons.mp hm with he | he
          · exact absurd he.symm (by decide)
          · exact ih he
      · rw [if_neg hc]
        intro hm
        rcases List.mem_cons.mp hm with he | he
        · rw [← he] at hc
          exact hc (by decide)
        · exact ih he

theorem collapseWS_chain : ∀ l : List Char, NoSpPair (collapseWS l) := by
  intro l
  induction l with
  | nil => simp [collapseWS, NoSpPair]
  | cons c rest ih =>
    cases rest with
    | nil =>
      rw [cws_one]
      by_cases hc : spTab c <;> simp [hc, NoSpPair]
    | cons r rs =>
      rw [cws_two]
      by_cases hc : spTab c
      · by_cases hr : spTab r
        · rw [if_pos hc, if_pos hr]
          exact ih
        · rw [if_pos hc, if_neg hr]
          refine List.chain'_cons'.mpr ⟨?_, ih⟩
          intro y hy
          rw [collapseWS_headq] at hy
          simp only [List.head?_cons, Option.map_some', Option.mem_def,
            Option.some.injEq] at hy
          rw [if_neg hr] at hy
          rw [← hy]
          intro hpair
          exact hr hpair.2
      · rw [if_neg hc]
        refine List.chain'_cons'.mpr ⟨?_, ih⟩
        intro y _ hpair
        exact hc hpair.1

theorem collapseWS_id : ∀ l : List Char, '\t' ∉ l → NoSpPair l →
    collapseWS l = l := by
  intro l
  induction l with
  | nil => intro _ _; rfl
  | cons c rest ih =>
    intro htab hchain
    have hrec := ih (fun hm => htab (by simp [hm])) (List.Chain'.tail hchain)
    by_cases hc : spTab c
    · have hcs : c = ' ' := by
        have h2 : c = ' ' ∨ c = '\t' := by
          simpa [spTab, decide_eq_true_eq] using hc
        rcases h2 with h2 | h2
        · exact h2
        · exact absurd (h2 ▸ List.mem_cons_self c rest) htab
      cases rest with
      | nil => rw [cws_one, if_pos hc, hcs]
      | cons r rs =>
        by_cases hr : spTab r
        · exfalso
          have hpair := (List.chain'_cons'.mp hchain).1 r (by simp)
          exact hpair ⟨hc, hr⟩
        · rw [cws_two, if_pos hc, if_neg hr, hrec, hcs]
    · cases rest with
      | nil => rw [cws_one, if_neg hc]
      | cons r rs => rw [cws_two, if_neg hc, hrec]

theorem drop_length_takeWhile (p : Char → Bool) (l : List Char) :
    l.drop (l.takeWhile p).length = l.dropWhile p := by
  induction l with
  | nil => rfl
  | cons c rest ih =>
    by_cases hc : p c
    · rw [List.takeWhile_cons, if_pos hc, List.dropWhile_cons_of_pos hc]
      simpa using ih
    · rw [List.takeWhile_cons, if_neg hc, List.dropWhile_cons_of_neg hc]
      rfl

theorem takeWhile_eq_self_of (p : Char → Bool) (l : List Char)
    (h : ∀ c ∈ l, p c = true) : l.takeWhile p = l := by
  induction l with
  | nil => rfl
  | cons c rest ih =>
    rw [List.takeWhile_cons, if_pos (h c (by simp))]
    rw [ih (fun x hx => h x (by simp [hx]))]

theorem takeWhile_dropWhile_nil (p : Char → Bool) (l : List Char) :
    (l.dropWhile p).takeWhile p = [] := by
  cases hd : l.dropWhile p with
  | nil => rfl
  | cons c rest =>
    have hc : p c = false := dropWhile_head_not p l c (by rw [hd]; rfl)
    rw [List.takeWhile_cons, if_neg (by simp [hc])]

theorem afterLastNL_eq (l : List Char) :
    afterLastNL l = List.rtakeWhile (fun c => c ≠ '\n') (l.takeWhile pyWs) ++
      l.drop (l.takeWhile pyWs).length := rfl

theorem afterLastNL_suffix (l : List Char) : afterLastNL l <:+ l := by
  rw [afterLastNL_eq]
  obtain ⟨u, hu⟩ := List.rtakeWhile_suffix
    (l := l.takeWhile pyWs) (p := fun c => c ≠ '\n')
  refine ⟨u, ?_⟩
  rw [← List.append_assoc, hu]
  rw [drop_length_takeWhile]
  exact List.takeWhile_append_dropWhile pyWs l

theorem afterLastNL_length_lt (l : List Char)
    (h : '\n' ∈ l.takeWhile pyWs) : (afterLastNL l).length < l.length := by
  rw [afterLastNL_eq]
  have hs := List.rtakeWhile_suffix
    (l := l.takeWhile pyWs) (p := fun c => c ≠ '\n')
  have hle := hs.length_le
  have hne : (List.rtakeWhile (fun c => c ≠ '\n') (l.takeWhile pyWs)).length ≠
      (l.takeWhile pyWs).length := by
    intro heq
    have heq2 := hs.eq_of_length heq
    have hall := List.rtakeWhile_eq_self_iff.mp heq2
    have := hall '\n' h
    simp at this
  have hwle : (l.takeWhile pyWs).length ≤ l.length :=
    (List.takeWhile_sublist pyWs).length_le
  have hwpos : 0 < (l.takeWhile pyWs).length := List.length_pos.mpr (by
    intro he
    rw [he] at h
    simp at h)
  simp only [List.length_append, List.length_drop]
  omega

theorem nlRunCount_afterLastNL (l : List Char) :
    nlRunCount (afterLastNL l) = 0 := by
  rw [afterLastNL_eq]
  have hall : ∀ c ∈ List.rtakeWhile (fun c => c ≠ '\n') (l.takeWhile pyWs),
      pyWs c = true := by
    intro c hc
    have hc2 := (List.rtakeWhile_suffix
      (l := l.takeWhile pyWs) (p := fun c => c ≠ '\n')).sublist.subset hc
    exact List.mem_takeWhile_imp hc2
  have hself := takeWhile_eq_self_of pyWs _ hall
  unfold nlRunCount
  rw [List.takeWhile_append]
  rw [hself, if_pos rfl]
  rw [drop_length_takeWhile, takeWhile_dropWhile_nil, List.append_nil]
  refine List.count_eq_zero.mpr ?_
  intro hmem
  have := List.mem_rtakeWhile_imp hmem
  simp at this

theorem afterLastNL_mem (l : List Char) (c : Char)
    (h : c ∈ afterLastNL l) : c ∈ l := by
  rw [afterLastNL_eq] at h
  rcases List.mem_append.mp h with h2 | h2
  · have h3 := (List.rtakeWhile_suffix
      (l := l.takeWhile pyWs) (p := fun c => c ≠ '\n')).sublist.subset h2
    exact (List.takeWhile_sublist pyWs).subset h3
  · exact List.drop_subset _ _ h2

theorem nlRunCount_cons_pos {c : Char} {t : List Char} (h : pyWs c = true) :
    nlRunCount (c :: t) = nlRunCount t + (if c = '\n' then 1 else 0) := by
  unfold nlRunCount
  rw [List.takeWhile_cons, if_pos h, List.count_cons]
  simp only [beq_iff_eq]

theorem nlRunCount_cons_neg {c : Char} {t : List Char} (h : pyWs c = false) :
    nlRunCount (c :: t) = 0 := by
  unfold nlRunCount
  rw [List.takeWhile_cons, if_neg (by simp [h])]
  rfl

theorem nlRunCount_cons_nl (t : List Char) :
    nlRunCount ('\n' :: t) = nlRunCount t + 1 := by
  rw [nlRunCount_cons_pos (by decide)]
  simp

/-- `l` contains no match of the triple-newline regex: every suffix beginning
with a newline has at most two newlines in its leading whitespace run. -/
def NoFire (l : List Char) : Prop :=
  ∀ s : List Char, s <:+ l → s.head? = some '\n' → nlRunCount s ≤ 2

theorem NoFire.tail {c : Char} {rest : List Char} (h : NoFire (c :: rest)) :
    NoFire rest :=
  fun s hs hh => h s (hs.trans (List.suffix_cons c rest)) hh

theorem cnl_cons (f : Nat) (c : Char) (rest : List Char) :
    collapseNLF (f + 1) (c :: rest) =
      if c = '\n' && decide (3 ≤ nlRunCount (c :: rest)) then
        '\n' :: '\n' :: collapseNLF f (afterLastNL (c :: rest))
      else c :: collapseNLF f rest := rfl

theorem collapseNLF_id : ∀ (f : Nat) (l : List Char), NoFire l →
    collapseNLF f l = l := by
  intro f
  induction f with
  | zero => intro l _; rfl
  | succ f ih =>
    intro l hnf
    cases l with
    | nil => rfl
    | cons c rest =>
      rw [cnl_cons]
      have hcond : ¬((c = '\n' && decide (3 ≤ nlRunCount (c :: rest))) = true) := by
        by_cases hc : c = '\n'
        · subst hc
          have h2 := hnf ('\n' :: rest) (List.suffix_refl _) rfl
          simp only [Bool.and_eq_true_iff, decide_eq_true_eq]
          rintro ⟨-, h3⟩
          omega
        · simp [hc]
      rw [if_neg hcond, ih rest hnf.tail]

theorem collapseNLF_count : ∀ (f : Nat) (l : List Char), l.length < f →
    nlRunCount (collapseNLF f l) ≤ nlRunCount l := by
  intro f
  induction f with
  | zero => intro l h; omega
  | succ f ih =>
    intro l hf
    cases l with
    | nil => exact Nat.le_refl _
    | cons c rest =>
      rw [cnl_cons]
      by_cases hcond : (c = '\n' && decide (3 ≤ nlRunCount (c :: rest))) = true
      · obtain ⟨hc, h3⟩ := Bool.and_eq_true_iff.mp hcond
        have hc2 : c = '\n' := of_decide_eq_true hc
        subst hc2
        rw [if_pos hcond]
        have h32 : 3 ≤ nlRunCount ('\n' :: rest) := of_decide_eq_true h3
        have hmem : '\n' ∈ ('\n' :: rest).takeWhile pyWs := by
          rw [List.takeWhile_cons, if_pos (by decide)]
          exact List.mem_cons_self _ _
        have hlen := afterLastNL_length_lt ('\n' :: rest) hmem
        have hflt : (afterLastNL ('\n' :: rest)).length < f := by
          simp only [List.length_cons] at hf hlen
          omega
        have hrec := ih _ hflt
        rw [nlRunCount_afterLastNL] at hrec
        rw [nlRunCount_cons_nl, nlRunCount_cons_nl]
        omega
      · rw [if_neg hcond]
        have hrec := ih rest (by simp only [List.length_cons] at hf; omega)
        cases hws : pyWs c with
        | false => rw [nlRunCount_cons_neg hws, nlRunCount_cons_neg hws]
        | true =>
          rw [nlRunCount_cons_pos hws, nlRunCount_cons_pos hws]
          exact Nat.add_le_add_right hrec _

theorem collapseNLF_nofire : ∀ (f : Nat) (l : List Char), l.length < f →
    NoFire (collapseNLF f l) := by
  intro f
  induction f with
  | zero => intro l h; omega
  | succ f ih =>
    intro l hf
    cases l with
    | nil =>
      intro s hs hh
      rw [show collapseNLF (f + 1) [] = [] from rfl] at hs
      rw [List.suffix_nil.mp hs] at hh
      exact Option.noConfusion hh
    | cons c rest =>
      rw [cnl_cons]
      by_cases hcond : (c = '\n' && decide (3 ≤ nlRunCount (c :: rest))) = true
      · have hc2 : c = '\n' := of_decide_eq_true (Bool.and_eq_true_iff.mp hcond).1
        subst hc2
        rw [if_pos hcond]
        have hmem : '\n' ∈ ('\n' :: rest).takeWhile pyWs := by
          rw [List.takeWhile_cons, if_pos (by decide)]
          exact List.mem_cons_self _ _
        have hlen := afterLastNL_length_lt ('\n' :: rest) hmem
        have hflt : (afterLastNL ('\n' :: rest)).length < f := by
          simp only [List.length_cons] at hf hlen
          omega
        have hnf2 := ih _ hflt
        have hcnt := collapseNLF_count f _ hflt
        rw [nlRunCount_afterLastNL] at hcnt
        intro s hs hh
        rcases List.suffix_cons_iff.mp hs with hs1 | hs2
        · rw [hs1]
          rw [nlRunCount_cons_nl, nlRunCount_cons_nl]
          omega
        · rcases List.suffix_cons_iff.mp hs2 with hs3 | hs4
          · rw [hs3, nlRunCount_cons_nl]
            omega
          · exact hnf2 s hs4 hh
      · rw [if_neg hcond]
        have hflt : rest.length < f := by
          simp only [List.length_cons] at hf
          omega
        have hnf2 := ih rest hflt
        have hcnt := collapseNLF_count f rest hflt
        intro s hs hh
        rcases List.suffix_cons_iff.mp hs with hs1 | hs2
        · rw [hs1] at hh ⊢
          have hc : c = '\n' := by simpa using hh
          subst hc
          have hle : nlRunCount ('\n' :: rest) ≤ 2 := by
            by_contra hgt
            exact hcond (Bool.and_eq_true_iff.mpr
              ⟨by decide, decide_eq_true (by omega)⟩)
          rw [nlRunCount_cons_nl] at hle ⊢
          omega
        · exact hnf2 s hs2 hh

theorem collapseNLF_mem : ∀ (f : Nat) (l : List Char) (c : Char),
    c ∈ collapseNLF f l → c ∈ l ∨ c = '\n' := by
  intro f
  induction f with
  | zero => intro l c h; exact Or.inl h
  | succ f ih =>
    intro l c h
    cases l with
    | nil => exact Or.inl h
    | cons d rest =>
      rw [cnl_cons] at h
      by_cases hcond : (d = '\n' && decide (3 ≤ nlRunCount (d :: rest))) = true
      · rw [if_pos hcond] at h
        rcases List.mem_cons.mp h with h1 | h2
        · exact Or.inr h1
        rcases List.mem_cons.mp h2 with h3 | h4
        · exact Or.inr h3
        rcases ih _ c h4 with hm | hm
        · exact Or.inl (afterLastNL_mem (d :: rest) c hm)
        · exact Or.inr hm
      · rw [if_neg hcond] at h
        rcases List.mem_cons.mp h with h1 | h2
        · exact Or.inl (by rw [h1]; exact List.mem_cons_self _ _)
        rcases ih rest c h2 with hm | hm
        · exact Or.inl (List.mem_cons_of_mem _ hm)
        · exact Or.inr hm

theorem collapseNLF_head_spTab (f : Nat) (l : List Char)
    (h : ∀ b, l.head? = some b → spTab b = false) :
    ∀ b, (collapseNLF f l).head? = some b → spTab b = false := by
  cases f with
  | zero => exact h
  | succ f =>
    cases l with
    | nil => exact h
    | cons c rest =>
      rw [cnl_cons]
      by_cases hcond : (c = '\n' && decide (3 ≤ nlRunCount (c :: rest))) = true
      · rw [if_pos hcond]
        intro b hb
        simp only [List.head?_cons, Option.some.injEq] at hb
        rw [← hb]
        decide
      · rw [if_neg hcond]
        intro b hb
        simp only [List.head?_cons, Option.some.injEq] at hb
        rw [← hb]
        exact h c rfl

theorem collapseNLF_chain : ∀ (f : Nat) (l : List Char), NoSpPair l →
    NoSpPair (collapseNLF f l) := by
  intro f
  induction f with
  | zero => intro l h; exact h
  | succ f ih =>
    intro l hch
    cases l with
    | nil => exact hch
    | cons c rest =>
      rw [cnl_cons]
      by_cases hcond : (c = '\n' && decide (3 ≤ nlRunCount (c :: rest))) = true
      · rw [if_pos hcond]
        have hch2 : NoSpPair (afterLastNL (c :: rest)) :=
          hch.suffix (afterLastNL_suffix (c :: rest))
        have hrec := ih _ hch2
        refine List.chain'_cons'.mpr ⟨?_, List.chain'_cons'.mpr ⟨?_, hrec⟩⟩
        · intro b _
          rintro ⟨h1, -⟩
          exact absurd h1 (by decide)
        · intro b _
          rintro ⟨h1, -⟩
          exact absurd h1 (by decide)
      · rw [if_neg hcond]
        have hrec := ih rest (List.Chain'.tail hch)
        refine List.chain'_cons'.mpr ⟨?_, hrec⟩
        intro b hb
        by_cases hc : spTab c = true
        · have hh : ∀ x, rest.head? = some x → spTab x = false := by
            intro x hx
            have hR := (List.chain'_cons'.mp hch).1 x (Option.mem_def.mpr hx)
            by_contra hx2
            exact hR ⟨hc, by simpa using hx2⟩
          rintro ⟨-, h2⟩
          rw [collapseNLF_head_spTab f rest hh b (Option.mem_def.mp hb)] at h2
          exact Bool.noConfusion h2
        · rintro ⟨h1, -⟩
          exact hc h1

theorem collapseNL_noTab (l : List Char) (h : '\t' ∉ l) :
    '\t' ∉ collapseNL l := by
  intro hm
  rcases collapseNLF_mem (l.length + 1) l '\t' hm with h1 | h1
  · exact h h1
  · exact absurd h1 (by decide)

theorem nlRunCount_le_append (s b : List Char) :
    nlRunCount s ≤ nlRunCount (s ++ b) := by
  unfold nlRunCount
  rw [List.takeWhile_append]
  by_cases h : (s.takeWhile pyWs).length = s.length
  · rw [if_pos h]
    have hs : s.takeWhile pyWs = s := (List.takeWhile_sublist pyWs).eq_of_length h
    rw [hs, List.count_append]
    exact Nat.le_add_right _ _
  · rw [if_neg h]

theorem NoFire.infix {m l : List Char} (hinf : m <:+: l) (h : NoFire l) :
    NoFire m := by
  intro s hs hh
  obtain ⟨a, b, hab⟩ := hinf
  obtain ⟨t, ht⟩ := hs
  have hsuf : s ++ b <:+ l := by
    refine ⟨a ++ t, ?_⟩
    rw [← hab, ← ht]
    simp [List.append_assoc]
  have hh2 : (s ++ b).head? = some '\n' := by
    cases s with
    | nil => exact Option.noConfusion hh
    | cons x xs =>
      simp only [List.head?_cons, Option.some.injEq] at hh
      simp [hh]
  exact le_trans (nlRunCount_le_append s b) (h (s ++ b) hsuf hh2)

theorem pstripL_infix (l : List Char) : pstripL l <:+: l := by
  rw [pstripL_as_rdrop]
  exact ((List.rdropWhile_prefix pyWs (l.dropWhile pyWs)).isInfix).trans
    (List.dropWhile_suffix pyWs).isInfix

theorem pstripL_getLast_not (l : List Char) (c : Char)
    (h : (pstripL l).getLast? = some c) : pyWs c = false := by
  have h2 : pstripL l = ((l.dropWhile pyWs).reverse.dropWhile pyWs).reverse := rfl
  rw [h2, List.getLast?_reverse] at h
  exact dropWhile_head_not pyWs _ c h

theorem pstripL_idem (l : List Char) : pstripL (pstripL l) = pstripL l := by
  cases hd : pstripL l with
  | nil => rfl
  | cons c r =>
    have hc : pyWs c = false := pstripL_head_not l c (by rw [hd]; rfl)
    rw [pstripL_as_rdrop, List.dropWhile_cons_of_neg (by simp [hc])]
    rw [List.rdropWhile_eq_self_iff]
    intro hl
    have hg : (c :: r).getLast? = some ((c :: r).getLast hl) :=
      List.getLast?_eq_getLast_of_ne_nil hl
    have hlast := pstripL_getLast_not l ((c :: r).getLast hl) (by rw [hd]; exact hg)
    simp [hlast]

theorem strip_html_data (t : String) (ht : t ≠ "") :
    strip_html t = ⟨pstripL (collapseNL (collapseWS (unescapeL (tagSub (pSub
      (brSub (scriptStyleSub t.data)))))))⟩ := by
  simp only [strip_html, if_neg ht]

/-- C4 counterexample: `strip_html` is not idempotent in general. Entity
unescaping runs after tag stripping, so escaped angle brackets in the input
become real tags in the output; a second pass strips them. On
`"&lt;b&gt;"` the first pass yields `"<b>"` and the second yields `""`. -/
theorem c4_unescape_not_idempotent :
    strip_html (strip_html "&lt;b&gt;") ≠ strip_html "&lt;b&gt;" := by
  decide

/-- C4 (amended): `strip_html` is idempotent on every input whose output
contains neither `<` nor `&`: applying `strip_html` to such an output
returns it unchanged. -/
theorem c4_strip_html_amended (s : String)
    (h1 : '<' ∉ (strip_html s).data) (h2 : '&' ∉ (strip_html s).data) :
    strip_html (strip_html s) = strip_html s := by
  by_cases hy : strip_html s = ""
  · rw [hy]
    simp [strip_html]
  · by_cases hs : s = ""
    · exact absurd (by rw [hs]; simp [strip_html]) hy
    · obtain ⟨u, hdata⟩ : ∃ u, (strip_html s).data =
          pstripL (collapseNL (collapseWS u)) :=
        ⟨_, congrArg String.data (strip_html_data s hs)⟩
      have hwTab : '\t' ∉ collapseWS u := collapseWS_noTab u
      have hwChain : NoSpPair (collapseWS u) := collapseWS_chain u
      have hmTab : '\t' ∉ collapseNL (collapseWS u) := collapseNL_noTab _ hwTab
      have hmChain : NoSpPair (collapseNL (collapseWS u)) :=
        collapseNLF_chain _ _ hwChain
      have hmFire : NoFire (collapseNL (collapseWS u)) :=
        collapseNLF_nofire _ _ (Nat.lt_succ_self _)
      have hinf : (strip_html s).data <:+: collapseNL (collapseWS u) := by
        rw [hdata]
        exact pstripL_infix _
      have hyTab : '\t' ∉ (strip_html s).data :=
        fun hmem => hmTab (hinf.sublist.subset hmem)
      have hyChain : NoSpPair (strip_html s).data := hmChain.infix hinf
      have hyFire : NoFire (strip_html s).data := NoFire.infix hinf hmFire
      have hno_lt : ∀ c ∈ (strip_html s).data, c ≠ '<' :=
        fun c hc he => h1 (he ▸ hc)
      have hno_amp : ∀ c ∈ (strip_html s).data, c ≠ '&' :=
        fun c hc he => h2 (he ▸ hc)
      rw [strip_html_data (strip_html s) hy]
      have e1 : scriptStyleSub (strip_html s).data = (strip_html s).data :=
        scriptStyleSubF_id _ _ hno_lt
      rw [e1]
      have e2 : brSub (strip_html s).data = (strip_html s).data :=
        brSubF_id _ _ hno_lt
      rw [e2]
      have e3 : pSub (strip_html s).data = (strip_html s).data :=
        pSubF_id _ _ hno_lt
      rw [e3]
      have e4 : tagSub (strip_html s).data = (strip_html s).data :=
        tagSubF_id _ _ hno_lt
      rw [e4]
      have e5 : unescapeL (strip_html s).data = (strip_html s).data :=
        unescapeF_id _ _ hno_amp
      rw [e5]
      have e6 : collapseWS (strip_html s).data = (strip_html s).data :=
        collapseWS_id _ hyTab hyChain
      rw [e6]
      have e7 : collapseNL (strip_html s).data = (strip_html s).data :=
        collapseNLF_id _ _ hyFire
      rw [e7]
      have e8 : pstripL (strip_html s).data = (strip_html s).data := by
        rw [hdata]
        exact pstripL_idem _
      rw [e8]

/-- Witness for `c4_strip_html_amended` at the input `"a<p>b"`, whose
output `"a b"` contains neither `<` nor `&`. -/
theorem c4_strip_html_amended_witness :
    ('<' ∉ (strip_html "a<p>b").data ∧ '&' ∉ (strip_html "a<p>b").data) ∧
      strip_html (strip_html "a<p>b") = strip_html "a<p>b" :=
  ⟨⟨by decide, by decide⟩,
    c4_strip_html_amended "a<p>b" (by decide) (by decide)⟩

theorem pstrip_idem (s : String) : pstrip (pstrip s) = pstrip s :=
  congrArg (fun l => (⟨l⟩ : String)) (pstripL_idem s.data)

theorem caws_one (c : Char) :
    collapseAllWS [c] = if pyWs c then [' '] else [c] := by
  by_cases h : pyWs c
  · simp only [collapseAllWS, h, if_true]
  · simp only [collapseAllWS, h, if_false]

theorem caws_two (c r : Char) (rs : List Char) :
    collapseAllWS (c :: r :: rs) =
      if pyWs c then
        (if pyWs r then collapseAllWS (r :: rs) else ' ' :: collapseAllWS (r :: rs))
      else c :: collapseAllWS (r :: rs) := rfl

theorem collapseAllWS_ne_nil : ∀ l : List Char, l ≠ [] → collapseAllWS l ≠ [] := by
  intro l
  induction l with
  | nil => intro h; exact absurd rfl h
  | cons c rest ih =>
    intro _
    cases rest with
    | nil =>
      rw [caws_one]
      by_cases hc : pyWs c
      · rw [if_pos hc]; simp
      · rw [if_neg hc]; simp
    | cons r rs =>
      rw [caws_two]
      by_cases hc : pyWs c
      · rw [if_pos hc]
        by_cases hr : pyWs r
        · rw [if_pos hr]
          exact ih (by simp)
        · rw [if_neg hr]; simp
      · rw [if_neg hc]; simp

theorem append_da_ne_empty (x : String) : x ++ "다" ≠ "" := by
  intro he
  have h2 : x.data ++ "다".data = [] := congrArg String.data he
  rcases List.append_eq_nil.mp h2 with ⟨-, h4⟩
  exact absurd h4 (by decide)

theorem close_sentence_ne_empty (p : String) (hp : pstrip p ≠ "") :
    close_sentence p ≠ "" := by
  have hdata : (pstrip p).data ≠ [] := by
    intro h
    exact hp (congrArg (fun l => (⟨l⟩ : String)) h)
  simp only [close_sentence]
  rw [if_neg hp]
  split_ifs with hc1 hc2
  · intro he
    exact collapseAllWS_ne_nil (pstrip p).data hdata (congrArg String.data he)
  · intro he
    exact collapseAllWS_ne_nil (pstrip p).data hdata (congrArg String.data he)
  · exact append_da_ne_empty _

theorem mem_insertDescBy (key : α → Nat) (x y : α) (l : List α)
    (h : x ∈ insertDescBy key y l) : x = y ∨ x ∈ l := by
  induction l with
  | nil => simpa [insertDescBy] using h
  | cons z zs ih =>
    simp only [insertDescBy] at h
    by_cases hk : key z ≤ key y
    · rw [if_pos hk] at h
      rcases List.mem_cons.mp h with h1 | h2
      · exact Or.inl h1
      · exact Or.inr h2
    · rw [if_neg hk] at h
      rcases List.mem_cons.mp h with h1 | h2
      · exact Or.inr (by rw [h1]; exact List.mem_cons_self _ _)
      · rcases ih h2 with h3 | h3
        · exact Or.inl h3
        · exact Or.inr (List.mem_cons_of_mem _ h3)

theorem mem_sortDescBy (key : α → Nat) (x : α) (l : List α)
    (h : x ∈ sortDescBy key l) : x ∈ l := by
  induction l with
  | nil => exact h
  | cons y ys ih =>
    have hh : sortDescBy key (y :: ys) = insertDescBy key y (sortDescBy key ys) :=
      rfl
    rw [hh] at h
    rcases mem_insertDescBy key x y _ h with h1 | h2
    · rw [h1]
      exact List.mem_cons_self _ _
    · exact List.mem_cons_of_mem _ (ih h2)

theorem split_sentences_ko_strip (text : String) :
    ∀ x ∈ split_sentences_ko text, pstrip x ≠ "" := by
  intro x hx
  simp only [split_sentences_ko] at hx
  by_cases hb : pstrip text = ""
  · rw [if_pos hb] at hx
    exact absurd hx (List.not_mem_nil x)
  · rw [if_neg hb] at hx
    obtain ⟨s, hs, hxe⟩ := List.mem_map.mp hx
    have hcond := (List.mem_filter.mp hs).2
    simp only [Bool.and_eq_true_iff, decide_eq_true_eq] at hcond
    have hlen : 4 < (pstrip s).length := hcond.2
    rw [← hxe, pstrip_idem]
    intro he
    rw [he] at hlen
    exact absurd hlen (by decide)

theorem pad3_eq_of_le (l : List String) (h : l.length ≤ 3) :
    pad3 l = l ++ List.replicate (3 - l.length) "" := by
  simp only [pad3]
  rw [List.take_append_eq_append_take, List.take_of_length_le h,
    List.take_replicate]
  simp [Nat.min_self]

theorem append_pad_take (l : List String) :
    (l ++ ["", "", ""]).take 3 =
      l.take 3 ++ List.replicate (3 - (l.take 3).length) "" := by
  rw [List.take_append_eq_append_take]
  congr 1
  rw [List.length_take]
  have h3 : ("" :: "" :: "" :: ([] : List String)) = List.replicate 3 "" := rfl
  rw [h3, List.take_replicate]
  congr 1
  omega

theorem pad3_map_padded (picked : List String)
    (hp : ∀ x ∈ picked, pstrip x ≠ "") :
    ∃ core : List String, core.length ≤ 3 ∧ (∀ x ∈ core, x ≠ "") ∧
      pad3 ((picked.take 3).map close_sentence) =
        core ++ List.replicate (3 - core.length) "" := by
  refine ⟨(picked.take 3).map close_sentence, ?_, ?_, ?_⟩
  · rw [List.length_map, List.length_take]
    exact Nat.min_le_left _ _
  · intro x hx
    obtain ⟨p, hpm, hpe⟩ := List.mem_map.mp hx
    rw [← hpe]
    exact close_sentence_ne_empty p (hp p (List.take_subset _ _ hpm))
  · exact pad3_eq_of_le _
      (by rw [List.length_map, List.length_take]; exact Nat.min_le_left _ _)

theorem fallback_summary_padded (text : String) (title : Option String) :
    ∃ core : List String, core.length ≤ 3 ∧ (∀ x ∈ core, x ≠ "") ∧
      fallback_summary text title = core ++ List.replicate (3 - core.length) "" := by
  have hstrip0 : ∀ x ∈ (sortDescBy scoreSent (split_sentences_ko text)).take 3,
      pstrip x ≠ "" := fun x hx =>
    split_sentences_ko_strip text x (mem_sortDescBy _ _ _ (List.take_subset _ _ hx))
  simp only [fallback_summary]
  revert hstrip0
  generalize (sortDescBy scoreSent (split_sentences_ko text)).take 3 = picked0
  intro hstrip0
  cases title with
  | none => exact pad3_map_padded picked0 hstrip0
  | some t =>
    dsimp only
    by_cases ht : pstrip t = ""
    · rw [if_neg (not_not_intro ht)]
      exact pad3_map_padded picked0 hstrip0
    · rw [if_pos ht]
      cases picked0 with
      | nil =>
        dsimp only
        refine pad3_map_padded [pstrip t] ?_
        intro x hx
        rw [List.mem_singleton.mp hx, pstrip_idem]
        exact ht
      | cons p0 ps =>
        dsimp only
        by_cases hcs : containsSub p0 (pstrip t) = true
        · rw [if_pos hcs]
          exact pad3_map_padded (p0 :: ps) hstrip0
        · rw [if_neg hcs]
          refine pad3_map_padded (pstrip t :: p0 :: ps) ?_
          intro x hx
          rcases List.mem_cons.mp hx with h1 | h2
          · rw [h1, pstrip_idem]
            exact ht
          · exact hstrip0 x h2

/-- C2: for every enrichment reply (including `none`, an empty line list, or
any number of lines), every input text and every optional title, `summarize`
returns a list of exactly 3 strings, and that list is a block of at most 3
non-empty lines right-padded with empty strings up to length 3 — on the
rule-based fallback path and on the enrichment path alike. -/
theorem c2_summarize_three_lines (reply : Option (List Json)) (text : String)
    (title : Option String) :
    (summarize reply text title).length = 3 ∧
    ∃ core : List String, core.length ≤ 3 ∧ (∀ x ∈ core, x ≠ "") ∧
      summarize reply text title = core ++ List.replicate (3 - core.length) "" := by
  have main : ∃ core : List String, core.length ≤ 3 ∧ (∀ x ∈ core, x ≠ "") ∧
      summarize reply text title = core ++ List.replicate (3 - core.length) "" := by
    simp only [summarize]
    cases reply with
    | none => exact fallback_summary_padded _ _
    | some ls =>
      by_cases h1 : 1 ≤ (pstrip text).length
      · simp only [if_pos h1]
        have hne : ∀ x ∈ ((ls.filterMap fun v =>
            match v with
            | Json.str s => some s
            | _ => none).filter fun lnn => pstrip lnn ≠ "").map close_sentence,
            x ≠ "" := by
          intro x hx
          obtain ⟨p, hpm, hpe⟩ := List.mem_map.mp hx
          have hf := (List.mem_filter.mp hpm).2
          simp only [decide_eq_true_eq] at hf
          rw [← hpe]
          exact close_sentence_ne_empty p hf
        revert hne
        generalize ((ls.filterMap fun v =>
            match v with
            | Json.str s => some s
            | _ => none).filter fun lnn => pstrip lnn ≠ "").map close_sentence = lines2
        intro hne
        by_cases h2 : 1 ≤ lines2.length
        · simp only [if_pos h2]
          refine ⟨lines2.take 3, ?_, ?_, ?_⟩
          · rw [List.length_take]
            exact Nat.min_le_left _ _
          · intro x hx
            exact hne x (List.take_subset _ _ hx)
          · exact append_pad_take lines2
        · simp only [if_neg h2]
          exact fallback_summary_padded _ _
      · simp only [if_neg h1]
        exact fallback_summary_padded _ _
  obtain ⟨core, hle, hnem, heq⟩ := main
  refine ⟨?_, core, hle, hnem, heq⟩
  rw [heq, List.length_append, List.length_replicate]
  omega

/-- C1: for an input whose trimmed text parses, as one JSON document, to a
non-empty array of record-like objects, the loader returns exactly the
array's elements in order, and the pipeline publishes exactly one output
record per input object, in the same order (the results array is the map of
the per-item processing over the input array). -/
theorem c1_array_order (text : String) (l : List Json)
    (hl : pyLoads (pstrip text) = some (Json.arr l))
    (hlne : l ≠ [])
    (hall : l.all is_item_dict = true) :
    load_input text = l ∧
    pipeline_results text = l.map (fun x => process_item (normalize_item x)) ∧
    (pipeline_results text).length = l.length := by
  have hne : pstrip text ≠ "" := by
    intro he
    rw [he] at hl
    exact Option.noConfusion hl
  -- the trimmed text cannot begin with a brace: a brace would parse to an
  -- object, not an array
  have hjl : jsonlTry (pstrip text) = none := by
    unfold jsonlTry
    rw [if_neg ?hcond]
    case hcond =>
      intro hcond
      obtain ⟨hhead, _⟩ := Bool.and_eq_true_iff.mp hcond
      rw [pstrip_no_leading text] at hhead
      cases hd : (pstrip text).data with
      | nil => rw [hd] at hhead; simp at hhead
      | cons c rest =>
        rw [hd] at hhead
        have hc : c = lbrace := by simpa using hhead
        -- pyLoads parses from the un-dropped text, whose head is not
        -- whitespace
        have hdrop : (pstrip text).data.dropWhile jsonWs = (pstrip text).data := by
          rw [hd]
          refine List.dropWhile_cons_of_neg ?_
          intro hw
          have hp := jsonWs_pyWs c hw
          have hq : pyWs c = false := by
            apply pstripL_head_not text.data
            have hd2 : pstripL text.data = c :: rest := hd
            rw [hd2]
            rfl
          rw [hq] at hp
          exact Bool.noConfusion hp
        unfold pyLoads at hl
        rw [hdrop, hd, hc] at hl
        rcases hp : parseVal (parseFuel (lbrace :: rest)) (lbrace :: rest) with
          _ | ⟨v, r⟩
        · rw [hp] at hl
          exact Option.noConfusion hl
        · rw [hp] at hl
          obtain ⟨fs, hfs⟩ := parseVal_lbrace_obj _ _ _ _ hp
          rw [hfs] at hl
          dsimp only at hl
          split at hl
          · injection hl with h2
            exact Json.noConfusion h2
          · exact Option.noConfusion hl
  have hfilter : l.filter isObj = l :=
    List.filter_eq_self.mpr (fun x hx =>
      is_item_dict_isObj x (List.all_eq_true.mp hall x hx))
  have hmerge : merge_values_into_items [Json.arr l] = l := by
    simp [merge_values_into_items, mergeOne, hfilter]
  have hie : l.isEmpty = false := by
    cases l with
    | nil => exact absurd rfl hlne
    | cons _ _ => rfl
  have hload : load_input text = l := by
    simp only [load_input]
    rw [if_neg hne, hjl, hl]
    simp only [afterValues, hmerge, hie, Bool.false_and, if_neg Bool.false_ne_true]
    simp [finalItems, hie]
  refine ⟨hload, ?_, ?_⟩
  · simp only [pipeline_results, hload, List.map_map]
    rfl
  · simp [pipeline_results, hload]

/-- C1 counterexample under the claim's literal reading: the empty JSON array
`[]` parses as a valid array (vacuously of record-like objects), yet the
pipeline publishes one output record — the plain-text fallback — not zero. -/
theorem c1_empty_array_output :
    pyLoads (pstrip "[]") = some (Json.arr []) ∧
    (([] : List Json).all is_item_dict = true) ∧
    (pipeline_results "[]").length = 1 ∧
    ([] : List Json).length = 0 := by
  exact ⟨rfl, rfl, rfl, rfl⟩

/-- Witness for C1: a one-object array yields exactly one output record. -/
theorem c1_array_order_witness :
    load_input "[\x7b\"contents\":\"abc\"\x7d]" =
      [Json.obj [("contents", Json.str "abc")]] ∧
    (pipeline_results "[\x7b\"contents\":\"abc\"\x7d]").length =
      [Json.obj [("contents", Json.str "abc")]].length := by
  have h := c1_array_order "[\x7b\"contents\":\"abc\"\x7d]"
    [Json.obj [("contents", Json.str "abc")]] rfl (List.cons_ne_nil _ _) rfl
  exact ⟨h.1, h.2.2⟩

/-- C10: identifier resolution tries the exact key list in ranked order,
skipping a present key whose value is null or whose string form strips to
empty; after a fully unproductive exact pass it falls through to fuzzy
key-name matching; non-string values are coerced through their `str()` form
(then stripped, empty becoming `None`); and the resolved id is never the
empty string. -/
theorem c10_id_resolution :
    (∀ item : List (String × Json), get_news_id item ≠ some "") ∧
    (∀ v : Json, v ≠ Json.null →
      coerce_id v =
        (if pstrip (pyStr v) = "" then none else some (pstrip (pyStr v)))) ∧
    (coerce_id Json.null = none ∧
      ∀ s : String, pstrip s = "" → coerce_id (Json.str s) = none) ∧
    (∀ item : List (String × Json),
      (∀ k ∈ exactIdKeys, (dictGet item k).bind coerce_id = none) →
      get_news_id item =
        item.findSome? (fun p => if fuzzyKeyMatch p.1 then coerce_id p.2 else none)) ∧
    (∀ (item : List (String × Json)) (l1 l2 : List String) (k : String)
        (v : String),
      exactIdKeys = l1 ++ k :: l2 →
      (∀ k2 ∈ l1, (dictGet item k2).bind coerce_id = none) →
      (dictGet item k).bind coerce_id = some v →
      get_news_id item = some v) ∧
    (∀ item : List (String × Json),
      (∀ k ∈ exactIdKeys, (dictGet item k).bind coerce_id = none) →
      (∀ p ∈ item, fuzzyKeyMatch p.1 = true → coerce_id p.2 = none) →
      get_news_id item = none) := by
  refine ⟨?ne, ?coe, ⟨rfl, ?str⟩, ?fall, ?rank, ?none⟩
  case ne =>
    intro item h
    unfold get_news_id at h
    rcases hx : exactIdKeys.findSome? (fun k => (dictGet item k).bind coerce_id) with
      _ | v
    · rw [hx] at h
      obtain ⟨p, _, hp⟩ := List.exists_of_findSome?_eq_some h
      by_cases hf : fuzzyKeyMatch p.1 = true
      · rw [if_pos hf] at hp
        exact coerce_id_ne_empty _ hp
      · rw [if_neg hf] at hp
        exact Option.noConfusion hp
    · rw [hx] at h
      obtain ⟨k, _, hk⟩ := List.exists_of_findSome?_eq_some hx
      rcases hg : dictGet item k with _ | j
      · rw [hg] at hk
        exact Option.noConfusion hk
      · rw [hg] at hk
        have : coerce_id j = some "" := by
          have hv : v = "" := by
            injection h
          simpa [hv] using hk
        exact coerce_id_ne_empty _ this
  case coe =>
    intro v hv
    cases v <;> simp only [coerce_id] <;> first | rfl | exact absurd rfl hv
  case str =>
    intro s hs
    simp [coerce_id, pyStr, hs]
  case fall =>
    intro item h
    unfold get_news_id
    rw [List.findSome?_eq_none_iff.mpr h]
  case rank =>
    intro item l1 l2 k v hsplit h1 hk
    unfold get_news_id
    rw [hsplit, List.findSome?_append, List.findSome?_eq_none_iff.mpr h1]
    rw [List.findSome?_cons_of_isSome _ (by simp [hk])]
    rw [hk]
    simp
  case none =>
    intro item h1 h2
    unfold get_news_id
    rw [List.findSome?_eq_none_iff.mpr h1]
    refine List.findSome?_eq_none_iff.mpr (fun p hp => ?_)
    by_cases hf : fuzzyKeyMatch p.1 = true
    · rw [if_pos hf]
      exact h2 p hp hf
    · rw [if_neg hf]

/-- Witness for C10: on `{"NewsItemId": null, "newsId": 7}` the null value
under the top-ranked key is skipped and the number under `newsId` resolves,
via its `str()` form, to `"7"`; on `{"newsikey": " "}` every key fails and
the id is `None`. -/
theorem c10_id_resolution_witness :
    get_news_id [("NewsItemId", Json.null), ("newsId", Json.num 7)] = some "7" ∧
    get_news_id [("newsikey", Json.str " ")] = none := by
  constructor
  · exact c10_id_resolution.2.2.2.2.1
      [("NewsItemId", Json.null), ("newsId", Json.num 7)]
      ["NewsItemId", "news_item_id", "newsIdentifyId", "newsIdentifyID",
       "newsidentifyid"] ["newsID", "id"] "newsId" "7" (by decide)
      (by decide) (by decide)
  · exact c10_id_resolution.2.2.2.2.2 [("newsikey", Json.str " ")]
      (by decide) (by decide)

/-- `scores[c]` as an option: the value found under key `c`. -/
def lookup_score (scores : List (String × Nat)) (c : String) : Option Nat :=
  (scores.find? (fun p => p.1 = c)).map Prod.snd

theorem bump_map_fst (s : List (String × Nat)) (cat : String) (n : Nat) :
    (bump s cat n).map Prod.fst = s.map Prod.fst := by
  simp only [bump, List.map_map]
  apply List.map_congr_left
  intro p _
  by_cases h : p.1 = cat <;> simp [h, Function.comp]

theorem ite_bump_map_fst (c : Prop) [Decidable c] (s : List (String × Nat))
    (cat : String) (n : Nat) :
    ((if c then bump s cat n else s).map Prod.fst) = s.map Prod.fst := by
  split
  · exact bump_map_fst s cat n
  · rfl

theorem classify_scores_keys (text : String) (title : Option String)
    (region : String) :
    (classify_scores text title region).map Prod.fst = PRIMARY_CATEGORIES := by
  simp only [classify_scores]
  rw [ite_bump_map_fst, ite_bump_map_fst, ite_bump_map_fst, ite_bump_map_fst,
    ite_bump_map_fst, ite_bump_map_fst, ite_bump_map_fst, ite_bump_map_fst,
    ite_bump_map_fst, ite_bump_map_fst, ite_bump_map_fst]
  rfl

theorem mem_ite_bump {c : Prop} [Decidable c] {s : List (String × Nat)}
    {cat : String} {n : Nat} {e : String × Nat} (he : e ∈ s)
    (hne : e.1 ≠ cat) : e ∈ (if c then bump s cat n else s) := by
  split
  · simp only [bump, List.mem_map]
    exact ⟨e, he, by simp [hne]⟩
  · exact he

theorem gita_mem (text : String) (title : Option String) (region : String) :
    ("기타", 0) ∈ classify_scores text title region := by
  simp only [classify_scores]
  refine mem_ite_bump ?_ (by decide)
  refine mem_ite_bump ?_ (by decide)
  refine mem_ite_bump ?_ (by decide)
  refine mem_ite_bump ?_ (by decide)
  refine mem_ite_bump ?_ (by decide)
  refine mem_ite_bump ?_ (by decide)
  refine mem_ite_bump ?_ (by decide)
  refine mem_ite_bump ?_ (by decide)
  refine mem_ite_bump ?_ (by decide)
  refine mem_ite_bump ?_ (by decide)
  refine mem_ite_bump ?_ (by decide)
  decide

theorem max_score_attained (scores : List (String × Nat)) (h : scores ≠ []) :
    ∃ p ∈ scores, p.2 = max_score scores := by
  induction scores with
  | nil => exact absurd rfl h
  | cons p rest ih =>
    by_cases hr : rest = []
    · subst hr
      exact ⟨p, by simp, by simp [max_score]⟩
    · obtain ⟨q, hq, hqe⟩ := ih hr
      simp only [max_score, List.map_cons, List.foldr_cons] at hqe ⊢
      by_cases hle : (rest.map Prod.snd).foldr max 0 ≤ p.2
      · exact ⟨p, by simp, by omega⟩
      · exact ⟨q, by simp [hq], by omega⟩

theorem max_score_zero_of (scores : List (String × Nat))
    (h : ∀ p ∈ scores, p.2 = 0) : max_score scores = 0 := by
  induction scores with
  | nil => rfl
  | cons p rest ih =>
    have h1 := h p (by simp)
    have h2 := ih (fun q hq => h q (by simp [hq]))
    simp only [max_score, List.map_cons, List.foldr_cons] at h2 ⊢
    omega

theorem lookup_of_mem_nodup (scores : List (String × Nat)) (c : String)
    (v : Nat) (hnd : (scores.map Prod.fst).Nodup) (hm : (c, v) ∈ scores) :
    lookup_score scores c = some v := by
  induction scores with
  | nil => simp at hm
  | cons p rest ih =>
    simp only [List.map_cons, List.nodup_cons] at hnd
    cases List.mem_cons.mp hm with
    | inl he =>
      rw [← he]
      simp [lookup_score]
    | inr hm2 =>
      by_cases hpc : p.1 = c
      · exfalso
        apply hnd.1
        rw [hpc]
        exact List.mem_map.mpr ⟨(c, v), hm2, rfl⟩
      · have hd : (decide (p.1 = c)) = false := by simp [hpc]
        have h2 := ih hnd.2 hm2
        simp only [lookup_score, List.find?_cons, hd] at h2 ⊢
        exact h2

theorem tied_mem (scores : List (String × Nat)) (c : String)
    (h : c ∈ tied_cats scores) : (c, max_score scores) ∈ scores := by
  simp only [tied_cats, List.mem_map] at h
  obtain ⟨p, hp, he⟩ := h
  have h1 := List.mem_of_mem_filter hp
  have h2 := List.of_mem_filter hp
  simp only [decide_eq_true_eq] at h2
  obtain ⟨p1, p2⟩ := p
  simp only at he h2
  rw [← he, ← h2]
  exact h1

theorem pick_primary_mem (scores : List (String × Nat)) (h : scores ≠ [])
    (hmax : max_score scores ≠ 0) : pick_primary scores ∈ tied_cats scores := by
  unfold pick_primary
  rw [if_neg hmax]
  cases htc : tied_cats scores with
  | nil =>
    exfalso
    obtain ⟨p, hp, he⟩ := max_score_attained scores h
    have hmem : p.1 ∈ tied_cats scores := by
      simp only [tied_cats, List.mem_map]
      exact ⟨p, List.mem_filter.mpr ⟨hp, by simp [he]⟩, rfl⟩
    rw [htc] at hmem
    simp at hmem
  | cons c cs =>
    cases cs with
    | nil => simp
    | cons c2 cs2 =>
      dsimp only
      cases hf : (c :: c2 :: cs2).filter (fun x => x ≠ "정책_정부") with
      | nil => exact List.mem_cons_self c _
      | cons d ds =>
        dsimp only
        have hd : d ∈ (c :: c2 :: cs2).filter (fun x => x ≠ "정책_정부") := by
          rw [hf]
          exact List.mem_cons_self d ds
        exact List.mem_of_mem_filter hd

/-- C5: in the fallback classifier the returned primary category is always a
label holding the maximum keyword score; all-zero scores yield the catch-all
`기타`; and whenever the tied set at the maximum contains a label other than
`정책_정부`, the returned label is not `정책_정부`. -/
theorem c5_fallback_primary (text : String) (title : Option String)
    (region : String) :
    ((fallback_classify text title region).1 =
      pick_primary (classify_scores text title region)) ∧
    (lookup_score (classify_scores text title region)
        (pick_primary (classify_scores text title region)) =
      some (max_score (classify_scores text title region))) ∧
    ((∀ p ∈ classify_scores text title region, p.2 = 0) →
      pick_primary (classify_scores text title region) = "기타") ∧
    ((∃ c ∈ tied_cats (classify_scores text title region), c ≠ "정책_정부") →
      pick_primary (classify_scores text title region) ≠ "정책_정부") := by
  have hkeys := classify_scores_keys text title region
  have hnd : ((classify_scores text title region).map Prod.fst).Nodup := by
    rw [hkeys]
    decide
  have hne : classify_scores text title region ≠ [] := by
    intro h
    rw [h] at hkeys
    simp [PRIMARY_CATEGORIES] at hkeys
  refine ⟨rfl, ?_, ?_, ?_⟩
  · by_cases hmax : max_score (classify_scores text title region) = 0
    · have hpick : pick_primary (classify_scores text title region) = "기타" := by
        unfold pick_primary
        rw [if_pos hmax]
      rw [hpick, hmax]
      exact lookup_of_mem_nodup _ _ _ hnd (gita_mem text title region)
    · have hmem := pick_primary_mem _ hne hmax
      exact lookup_of_mem_nodup _ _ _ hnd (tied_mem _ _ hmem)
  · intro hz
    unfold pick_primary
    rw [if_pos (max_score_zero_of _ hz)]
  · rintro ⟨c, hc, hcne⟩
    by_cases hmax : max_score (classify_scores text title region) = 0
    · unfold pick_primary
      rw [if_pos hmax]
      decide
    · unfold pick_primary
      rw [if_neg hmax]
      revert hc
      cases htc : tied_cats (classify_scores text title region) with
      | nil => intro hc; simp at hc
      | cons c1 cs =>
        cases cs with
        | nil =>
          intro hc
          have : c = c1 := by simpa using hc
          rw [← this]
          exact hcne
        | cons c2 cs2 =>
          intro hc
          dsimp only
          cases hf : (c1 :: c2 :: cs2).filter (fun x => x ≠ "정책_정부") with
          | nil =>
            exfalso
            have hcf : c ∈ (c1 :: c2 :: cs2).filter (fun x => x ≠ "정책_정부") :=
              List.mem_filter.mpr ⟨hc, by simp [hcne]⟩
            rw [hf] at hcf
            simp at hcf
          | cons d ds =>
            dsimp only
            have hd : d ∈ (c1 :: c2 :: cs2).filter (fun x => x ≠ "정책_정부") := by
              rw [hf]
              exact List.mem_cons_self d ds
            have h3 := List.of_mem_filter hd
            simpa using h3

/-- Witness for C5: on the text `대통령 개정` the categories `정책_정부` and
`규제_제도` tie at the maximum score 3, and the returned primary is not
`정책_정부`. -/
theorem c5_fallback_primary_witness :
    (fallback_classify "대통령 개정" none "전국").1 ≠ "정책_정부" := by
  have h := (c5_fallback_primary "대통령 개정" none "전국").2.2.2
    ⟨"규제_제도", by decide, by decide⟩
  have h1 := (c5_fallback_primary "대통령 개정" none "전국").1
  rw [h1]
  exact h

/-- Witness for C6: the blob `경기도에서 경기 대회` contains the alias
`경기도` and its canonical short form `경기`; detection returns `경기`.  A
term-free blob returns `전국`. -/
theorem c6_detect_region_witness :
    detect_region "경기도에서 경기 대회" none = "경기" ∧
    detect_region "오늘 날씨" none = "전국" := by
  constructor
  · exact ((c6_detect_region.1 "경기도에서 경기 대회" none "경기도" "경기")
      (by decide)).1
  · exact c6_detect_region.2 "오늘 날씨" none (by decide) (by decide)
